import Mathlib

/-!
# hhash: a human-readable hashing engine

A shallow embedding of `hhash.go`, followed by theorems about it.

* Go strings are lists of `Char` (`List Char`); byte buffers are lists of `Nat` below 256.
  The string that `HashString` hashes is given by its bytes, which need not be valid
  UTF-8; `utf8Bytes` gives the bytes that hold a text.
* `uint64` values are `Nat`, reduced `% 2 ^ 64` wherever Go's arithmetic wraps.
* The receiver `*HHash` is passed explicitly and returned when a method may change it.
* A call either returns a value or stops with a `Fault`: a Go run-time panic, or
  `Fault.outOfFuel` when the re-hash loop of `hashForWordType` has not exited within
  the given number of iterations.
-/

namespace xxhash

/-! ## `github.com/cespare/xxhash`: XXH64 with seed 0 -/

def prime1 : Nat := 11400714785074694791
def prime2 : Nat := 14029467366897019727
def prime3 : Nat := 1609587929392839161
def prime4 : Nat := 9650029242287828579
def prime5 : Nat := 2870177450012600261

/-- Truncation to `uint64`. -/
def u64 (x : Nat) : Nat := x % 2 ^ 64

/-- The function `bits.RotateLeft64 x r` for `0 < r < 64`. -/
def rol (r x : Nat) : Nat := u64 (x <<< r) ||| (u64 x >>> (64 - r))

/-- The function `round(acc, input)`: `acc += input * prime2; acc = rol31(acc); acc *= prime1`. -/
def round (acc input : Nat) : Nat := u64 (rol 31 (u64 (acc + input * prime2)) * prime1)

/-- The function `mergeRound(acc, val)`. -/
def mergeRound (acc val : Nat) : Nat := u64 (u64 ((acc ^^^ round 0 val) * prime1) + prime4)

/-- Little-endian value of a byte list. -/
def leUint : List Nat → Nat
  | [] => 0
  | b :: bs => b + 256 * leUint bs

/-- The function `u64(b)`: the first eight bytes, little-endian. -/
def u64le (b : List Nat) : Nat := leUint (b.take 8)

/-- The function `u32(b)`: the first four bytes, little-endian. -/
def u32le (b : List Nat) : Nat := leUint (b.take 4)

/-- The loop `for len(b) >= 32` over 32-byte stripes; the first argument bounds the
number of iterations and is the length of the input. -/
def stripes : Nat → List Nat → Nat × Nat × Nat × Nat → (Nat × Nat × Nat × Nat) × List Nat
  | 0, b, v => (v, b)
  | fuel + 1, b, (v1, v2, v3, v4) =>
    if 32 ≤ b.length then
      stripes fuel (b.drop 32)
        (round v1 (u64le b), round v2 (u64le (b.drop 8)),
         round v3 (u64le (b.drop 16)), round v4 (u64le (b.drop 24)))
    else ((v1, v2, v3, v4), b)

/-- The loop `for ; i+8 <= end; i += 8` over the remaining 8-byte words. -/
def words8 : Nat → List Nat → Nat → Nat × List Nat
  | 0, b, h => (h, b)
  | fuel + 1, b, h =>
    if 8 ≤ b.length then
      words8 fuel (b.drop 8) (u64 (u64 (rol 27 (h ^^^ round 0 (u64le b)) * prime1) + prime4))
    else (h, b)

/-- The loop `for ; i < end; i++` over the last bytes. -/
def tail1 : List Nat → Nat → Nat
  | [], h => h
  | x :: bs, h => tail1 bs (u64 (rol 11 (h ^^^ u64 (x * prime5)) * prime1))

/-- The final mixing steps of `Sum64`. -/
def avalanche (h : Nat) : Nat :=
  let h := h ^^^ (h >>> 33)
  let h := u64 (h * prime2)
  let h := h ^^^ (h >>> 29)
  let h := u64 (h * prime3)
  h ^^^ (h >>> 32)

/-- The function `xxhash.Sum64(b)`. -/
def Sum64 (b : List Nat) : Nat :=
  let n := b.length
  let (h, b) :=
    if 32 ≤ n then
      let ((v1, v2, v3, v4), b) :=
        stripes n b (u64 (prime1 + prime2), prime2, 0, u64 (2 ^ 64 - prime1))
      let h := u64 (rol 1 v1 + rol 7 v2 + rol 12 v3 + rol 18 v4)
      (mergeRound (mergeRound (mergeRound (mergeRound h v1) v2) v3) v4, b)
    else (prime5, b)
  let h := u64 (h + n)
  let (h, b) := words8 n b h
  let (h, b) :=
    if 4 ≤ b.length then
      (u64 (u64 (rol 23 (h ^^^ u64 (u32le b * prime1)) * prime2) + prime3), b.drop 4)
    else (h, b)
  avalanche (tail1 b h)

end xxhash

namespace hhash

/-! ## Library functions used by `hhash.go` -/

/-- The function `binary.LittleEndian.PutUint64`: the eight bytes of a `uint64`. -/
def PutUint64 (v : Nat) : List Nat :=
  (List.range 8).map fun i => (v >>> (8 * i)) % 256

/-- The mixing step of `hashForWordType`: `PutUint64(hashBuffer, x)` followed by
`xxhash.Sum64(hashBuffer)`. -/
def mix (x : Nat) : Nat := xxhash.Sum64 (PutUint64 x)

/-- Case and category tables of Go's `unicode` package for the runes above ASCII.
The functions below consult them only after their ASCII fast paths. -/
structure UnicodeTables where
  toLower : Char → Char
  toTitle : Char → Char
  isLetter : Char → Bool
  isDigit : Char → Bool
  isSpace : Char → Bool

/-- The function `unicode.ToLower`. -/
def unicodeToLower (U : UnicodeTables) (r : Char) : Char :=
  if r.toNat ≤ 127 then
    if 'A'.toNat ≤ r.toNat ∧ r.toNat ≤ 'Z'.toNat then Char.ofNat (r.toNat + 32) else r
  else U.toLower r

/-- The function `unicode.ToTitle`. -/
def unicodeToTitle (U : UnicodeTables) (r : Char) : Char :=
  if r.toNat ≤ 127 then
    if 'a'.toNat ≤ r.toNat ∧ r.toNat ≤ 'z'.toNat then Char.ofNat (r.toNat - 32) else r
  else U.toTitle r

/-- The function `isSeparator` of package `strings`. -/
def isSeparator (U : UnicodeTables) (r : Char) : Bool :=
  if r.toNat ≤ 127 then
    if '0'.toNat ≤ r.toNat ∧ r.toNat ≤ '9'.toNat then false
    else if 'a'.toNat ≤ r.toNat ∧ r.toNat ≤ 'z'.toNat then false
    else if 'A'.toNat ≤ r.toNat ∧ r.toNat ≤ 'Z'.toNat then false
    else if r = '_' then false
    else true
  else if U.isLetter r || U.isDigit r then false
  else U.isSpace r

/-- The function `strings.ToLower`. -/
def stringsToLower (U : UnicodeTables) (s : List Char) : List Char :=
  s.map (unicodeToLower U)

/-- The mapping loop of `strings.Title`; `prev` is the rune seen before. -/
def titleFrom (U : UnicodeTables) : Char → List Char → List Char
  | _, [] => []
  | prev, r :: rs =>
    (if isSeparator U prev then unicodeToTitle U r else r) :: titleFrom U r rs

/-- The function `strings.Title`. -/
def stringsTitle (U : UnicodeTables) (s : List Char) : List Char :=
  titleFrom U ' ' s

/-! ## Data model -/

/-- The semantic type of the words a token generates. -/
inductive WordType where
  | Adjective
  | Adverb
  | Noun
  | Verb
  | VerbPast
  | VerbGerund
deriving DecidableEq, Repr

/-- The casing of a generated word. -/
inductive WordCase where
  | Title
  | Lower
deriving DecidableEq, Repr

/-- The struct `HHash`. The field `regexp` records whether the pointer holds the compiled
`patternRegex` (`false` is the nil pointer); `numChoicesPerWord` is `none` for a nil slice. -/
structure HHash where
  pattern : List Char
  regexp : Bool
  Adjectives : List (List Char)
  Adverbs : List (List Char)
  Nouns : List (List Char)
  Verbs : List (List Char)
  VerbsPast : List (List Char)
  VerbsGerund : List (List Char)
  AllowRepeats : Bool
  CalculateCollisionRate : Bool
  numChoicesPerWord : Option (List Nat)
deriving DecidableEq, Repr

/-- Ways in which a call does not return a value. -/
inductive Fault where
  | divideByZero
  | indexOutOfRange
  | nilDereference
  | outOfFuel
deriving DecidableEq, Repr

/-! ## The pattern regular expression -/

/-- The class `[a-zA-Z%]` of `patternRegex`. -/
def isWordCodeChar (c : Char) : Bool := c.isAlpha || c == '%'

/-- The class `[a-zA-Z\d]` of `patternRegex`. -/
def isParameterChar (c : Char) : Bool := c.isAlphanum

/-- The capture groups of a match of `patternRegex` that `tokenReplacer` reads:
`parts[0]`, `parts[2]` and `parts[4]`. -/
structure Submatch where
  token : List Char
  wordCode : List Char
  parameter : List Char
deriving DecidableEq, Repr

/-- The optional group `({([a-zA-Z\d]+)})?` at the head of the input: the parameter and
the input after the closing brace. -/
def matchParameter : List Char → Option (List Char × List Char)
  | [] => none
  | b :: rest =>
    if b = '{' then
      match rest.dropWhile isParameterChar with
      | [] => none
      | d :: after =>
        if d = '}' ∧ rest.takeWhile isParameterChar ≠ [] then
          some (rest.takeWhile isParameterChar, after)
        else none
    else none

/-- A match of `patternRegex = %(([a-zA-Z%])({([a-zA-Z\d]+)})?)` anchored at the head of
the input, with the input that follows the match. -/
def matchToken : List Char → Option (Submatch × List Char)
  | a :: c :: rest =>
    if a = '%' ∧ isWordCodeChar c = true then
      match matchParameter rest with
      | some (p, after) => some (⟨'%' :: c :: '{' :: (p ++ ['}']), [c], p⟩, after)
      | none => some (⟨['%', c], [c], []⟩, rest)
    else none
  | _ => none

/-- The method `Regexp.FindStringSubmatch` for `patternRegex`: the groups of the leftmost
match, `none` (a nil slice) when there is no match. -/
def FindStringSubmatch : List Char → Option Submatch
  | [] => none
  | c :: cs =>
    match matchToken (c :: cs) with
    | some (parts, _) => some parts
    | none => FindStringSubmatch cs

/-- The loop of `Regexp.ReplaceAllStringFunc` for `patternRegex`. The replacement function
is a Go closure: it reads and updates a state `σ` and may panic. The first argument bounds
the number of steps and is the length of the source. -/
def replaceAll {σ : Type} (repl : σ → List Char → Except Fault (List Char × σ)) :
    Nat → σ → List Char → Except Fault (List Char × σ)
  | 0, st, src => .ok (src, st)
  | _ + 1, st, [] => .ok ([], st)
  | n + 1, st, c :: cs =>
    match matchToken (c :: cs) with
    | some (parts, rest) =>
      match repl st parts.token with
      | .error e => .error e
      | .ok (word, st1) =>
        match replaceAll repl n st1 rest with
        | .error e => .error e
        | .ok (out, st2) => .ok (word ++ out, st2)
    | none =>
      match replaceAll repl n st cs with
      | .error e => .error e
      | .ok (out, st1) => .ok (c :: out, st1)

/-- The method `Regexp.ReplaceAllStringFunc` for `patternRegex`. -/
def ReplaceAllStringFunc {σ : Type} (repl : σ → List Char → Except Fault (List Char × σ))
    (st : σ) (src : List Char) : Except Fault (List Char × σ) :=
  replaceAll repl src.length st src

/-! ## The hasher -/

/-- The method `InitPattern`: `regexp.Compile(patternRegex)` succeeds, so the error
returned is nil. -/
def InitPattern (hasher : HHash) (pattern : List Char) : HHash :=
  { hasher with pattern := pattern, regexp := true, numChoicesPerWord := some [] }

/-- The method `WordsForType`. -/
def WordsForType (hasher : HHash) : WordType → List (List Char)
  | .Adjective => hasher.Adjectives
  | .Adverb => hasher.Adverbs
  | .Noun => hasher.Nouns
  | .Verb => hasher.Verbs
  | .VerbPast => hasher.VerbsPast
  | .VerbGerund => hasher.VerbsGerund

/-- The loop `for currentIndex == previousIndex` of `hashForWordType`; the first argument
bounds the number of iterations. -/
def rehash (wordsLength : Nat) : Nat → Nat → Nat → Nat → Except Fault Nat
  | fuel, newHash, currentIndex, previousIndex =>
    if currentIndex = previousIndex then
      match fuel with
      | 0 => .error .outOfFuel
      | fuel + 1 => rehash wordsLength fuel (mix newHash) (mix newHash % wordsLength) currentIndex
    else .ok newHash

/-- The method `hashForWordType`. -/
def hashForWordType (fuel : Nat) (hasher : HHash) (wordType : WordType) (previousHash : Nat) :
    Except Fault Nat :=
  if !hasher.AllowRepeats then
    if (WordsForType hasher wordType).length = 0 then .error .divideByZero
    else
      rehash (WordsForType hasher wordType).length fuel (mix previousHash)
        (mix previousHash % (WordsForType hasher wordType).length)
        (previousHash % (WordsForType hasher wordType).length)
  else .ok (mix previousHash)

/-- The append to `numChoicesPerWord` in `wordForToken`. -/
def recordChoices (hasher : HHash) (dataSetSize : Nat) : HHash :=
  if hasher.CalculateCollisionRate then
    match hasher.numChoicesPerWord with
    | some sizes => { hasher with numChoicesPerWord := some (sizes ++ [dataSetSize]) }
    | none => hasher
  else hasher

/-- The `switch wordCase` of `wordForToken`. -/
def applyCase (U : UnicodeTables) (wordCase : WordCase) (word : List Char) : List Char :=
  match wordCase with
  | .Lower => stringsToLower U word
  | .Title => stringsTitle U word

/-- The method `wordForToken`: the word, the hash and the hasher afterwards. -/
def wordForToken (U : UnicodeTables) (fuel : Nat) (hasher : HHash) (wordType : WordType)
    (wordCase : WordCase) (seed : Nat) : Except Fault (List Char × Nat × HHash) :=
  match hashForWordType fuel hasher wordType seed with
  | .error e => .error e
  | .ok hash =>
    if (WordsForType hasher wordType).length = 0 then .error .divideByZero
    else
      match (WordsForType hasher wordType)[hash % (WordsForType hasher wordType).length]? with
      | none => .error .indexOutOfRange
      | some word =>
        .ok (applyCase U wordCase word, hash,
          recordChoices hasher (WordsForType hasher wordType).length)

/-- The function `toWordType`; `none` is the non-nil error. -/
def toWordType (U : UnicodeTables) (wordCode parameter : List Char) :
    Option (WordType × WordCase) :=
  let wordCase := if wordCode = stringsToLower U wordCode then WordCase.Lower else WordCase.Title
  if stringsToLower U wordCode = ['a'] then some (.Adverb, wordCase)
  else if stringsToLower U wordCode = ['j'] then some (.Adjective, wordCase)
  else if stringsToLower U wordCode = ['n'] then some (.Noun, wordCase)
  else if stringsToLower U wordCode = ['v'] then
    if stringsToLower U parameter = ['p'] then some (.VerbPast, wordCase)
    else if stringsToLower U parameter = ['g'] then some (.VerbGerund, wordCase)
    else some (.Verb, wordCase)
  else none

/-- The closure returned by `tokenReplacer`: its state is the hasher and the captured
variable `seed`. -/
def tokenReplacer (U : UnicodeTables) (fuel : Nat) (st : HHash × Nat) (token : List Char) :
    Except Fault (List Char × (HHash × Nat)) :=
  match FindStringSubmatch token with
  | none => .error .indexOutOfRange
  | some parts =>
    match toWordType U parts.wordCode parts.parameter with
    | none => .ok (token, st)
    | some (wordType, wordCase) =>
      match wordForToken U fuel st.1 wordType wordCase st.2 with
      | .error e => .error e
      | .ok (word, seed, hasher) => .ok (word, (hasher, seed))

/-- The loop over `numChoicesPerWord` in `HashUint`, in `uint` arithmetic (64 bits). -/
def totalNumChoices (sizes : List Nat) : Nat :=
  sizes.foldl (fun total numChoices => (total * numChoices) % 2 ^ 64) 1

/-- What a call of `HashUint` yields: the string returned, the hasher afterwards and the
total number of choices logged, if the collision rate was reported. -/
structure HashResult where
  hashed : List Char
  hasher : HHash
  reported : Option Nat
deriving DecidableEq, Repr

/-- The collision report at the end of `HashUint`. -/
def report (hashed : List Char) (hasher : HHash) : HashResult :=
  if hasher.CalculateCollisionRate then
    match hasher.numChoicesPerWord with
    | some sizes =>
      ⟨hashed, { hasher with numChoicesPerWord := none }, some (totalNumChoices sizes)⟩
    | none => ⟨hashed, hasher, none⟩
  else ⟨hashed, hasher, none⟩

/-- The method `HashUint`. -/
def HashUint (U : UnicodeTables) (fuel : Nat) (hasher : HHash) (seed : Nat) :
    Except Fault HashResult :=
  if hasher.regexp = false then .error .nilDereference
  else
    match ReplaceAllStringFunc (tokenReplacer U fuel) (hasher, seed) hasher.pattern with
    | .error e => .error e
    | .ok (hashed, (hasher1, _)) => .ok (report hashed hasher1)

/-! ## Patterns as segments

The pattern seen as a sequence of segments, and rendering as a walk over them. -/

/-- A piece of a pattern: a rune of literal text, or a token with its capture groups. -/
inductive Segment where
  | literal (c : Char)
  | token (parts : Submatch)
deriving DecidableEq, Repr

/-- The walk over the segments of a pattern with a replacement closure. -/
def renderSegments {σ : Type} (repl : σ → List Char → Except Fault (List Char × σ)) :
    σ → List Segment → Except Fault (List Char × σ)
  | st, [] => .ok ([], st)
  | st, .literal c :: segs =>
    match renderSegments repl st segs with
    | .error e => .error e
    | .ok (out, st1) => .ok (c :: out, st1)
  | st, .token parts :: segs =>
    match repl st parts.token with
    | .error e => .error e
    | .ok (word, st1) =>
      match renderSegments repl st1 segs with
      | .error e => .error e
      | .ok (out, st2) => .ok (word ++ out, st2)

/-- The segments of a pattern cut by an anchored token matcher, left to right; the first
argument bounds the number of steps. -/
def segmentsWith (matcher : List Char → Option (Submatch × List Char)) :
    Nat → List Char → List Segment
  | 0, src => src.map .literal
  | _ + 1, [] => []
  | n + 1, c :: cs =>
    match matcher (c :: cs) with
    | some (parts, rest) => .token parts :: segmentsWith matcher n rest
    | none => .literal c :: segmentsWith matcher n cs

/-- The segments of a pattern: the matches of `patternRegex`, leftmost first and not
overlapping, and the runes between them. A token segment may carry any letter or `%`. -/
def segments (src : List Char) : List Segment :=
  segmentsWith matchToken src.length src

/-- A recognised token at the head of the input, as the specification words it: a `%`
followed by one of a/j/n/v in either case, with an optional `{alphanumerics}` parameter. -/
def matchRecognised : List Char → Option (Submatch × List Char)
  | a :: c :: rest =>
    if a = '%' ∧ c ∈ ['a', 'j', 'n', 'v', 'A', 'J', 'N', 'V'] then
      match matchParameter rest with
      | some (p, after) => some (⟨'%' :: c :: '{' :: (p ++ ['}']), [c], p⟩, after)
      | none => some (⟨['%', c], [c], []⟩, rest)
    else none
  | _ => none

/-- The segments of a pattern when only recognised tokens are cut out, taken left to right,
and all other text is literal. -/
def recognisedSegments (src : List Char) : List Segment :=
  segmentsWith matchRecognised src.length src

/-- The sub-hash and the word of one token of type `wordType` and case `wordCase` after the
running hash `prev`: `h = hashForWordType(wordType, prev)` and the word
`wordCase(WordsForType(wordType)[h mod len])`; `none` when that does not return. -/
def tokenWord (U : UnicodeTables) (fuel : Nat) (hasher : HHash) (wordType : WordType)
    (wordCase : WordCase) (prev : Nat) : Option (List Char × Nat) :=
  match hashForWordType fuel hasher wordType prev with
  | .error _ => none
  | .ok h =>
    match (WordsForType hasher wordType)[h % (WordsForType hasher wordType).length]? with
    | none => none
    | some word => some (applyCase U wordCase word, h)

/-- Rendering as the specification describes it: literal text is copied, a token whose
letter names a category is replaced by its word and hands its sub-hash to the next token,
any other token is copied as its raw text and leaves the running hash alone. -/
def renderSpec (U : UnicodeTables) (fuel : Nat) (hasher : HHash) :
    Nat → List Segment → Option (List Char)
  | _, [] => some []
  | h, .literal c :: segs => (renderSpec U fuel hasher h segs).map (c :: ·)
  | h, .token parts :: segs =>
    match toWordType U parts.wordCode parts.parameter with
    | none => (renderSpec U fuel hasher h segs).map (parts.token ++ ·)
    | some (wordType, wordCase) =>
      match tokenWord U fuel hasher wordType wordCase h with
      | none => none
      | some (word, h1) => (renderSpec U fuel hasher h1 segs).map (word ++ ·)

/-- Two hashers with the same compiled pattern, word lists and `AllowRepeats`; they may
differ in `CalculateCollisionRate` and `numChoicesPerWord`. -/
def SameConfig (h1 h2 : HHash) : Prop :=
  h1.pattern = h2.pattern ∧ h1.regexp = h2.regexp ∧ h1.Adjectives = h2.Adjectives ∧
  h1.Adverbs = h2.Adverbs ∧ h1.Nouns = h2.Nouns ∧ h1.Verbs = h2.Verbs ∧
  h1.VerbsPast = h2.VerbsPast ∧ h1.VerbsGerund = h2.VerbsGerund ∧
  h1.AllowRepeats = h2.AllowRepeats

/-- The word-list sizes that one rendering pass records: one for each token whose letter
names a category, in order. -/
def touchedSizes (U : UnicodeTables) (hasher : HHash) : List Segment → List Nat
  | [] => []
  | .literal _ :: segs => touchedSizes U hasher segs
  | .token parts :: segs =>
    match toWordType U parts.wordCode parts.parameter with
    | none => touchedSizes U hasher segs
    | some (wordType, _) =>
      (WordsForType hasher wordType).length :: touchedSizes U hasher segs

/-- The hasher after the sizes `sizes` have been recorded one by one. -/
def recordAll (hasher : HHash) (sizes : List Nat) : HHash :=
  sizes.foldl recordChoices hasher

/-- Tables that leave the runes above ASCII alone, for evaluating on ASCII input. -/
def asciiOnly : UnicodeTables :=
  ⟨fun r => r, fun r => r, fun _ => false, fun _ => false, fun _ => false⟩

/-- A token segment whose groups are those `patternRegex` finds in its own text. -/
def Segment.Matched : Segment → Prop
  | .literal _ => True
  | .token parts => FindStringSubmatch parts.token = some parts

deriving instance DecidableEq for Except

/-- A small word bank with two words in each category, before any pattern is set. -/
def exampleBank : HHash :=
  { pattern := [], regexp := false,
    Adjectives := ["quick".toList, "lazy".toList],
    Adverbs := ["quickly".toList, "slowly".toList],
    Nouns := ["fox".toList, "dog".toList],
    Verbs := ["run".toList, "eat".toList],
    VerbsPast := ["ran".toList, "ate".toList],
    VerbsGerund := ["running".toList, "eating".toList],
    AllowRepeats := false, CalculateCollisionRate := false, numChoicesPerWord := none }

/-- A word bank whose noun list holds the same word twice. -/
def repeatedNounBank : HHash :=
  { exampleBank with Nouns := ["fox".toList, "fox".toList] }

/-- The example bank initialised with the default pattern and set to report the collision
rate. -/
def exampleReporting : HHash :=
  { InitPattern exampleBank "%A%V{G}%N".toList with CalculateCollisionRate := true }

/-- A word bank with an empty noun list. -/
def emptyNounBank : HHash :=
  { exampleBank with Nouns := [] }

/-- A word bank whose noun list holds a single word. -/
def singleNounBank : HHash :=
  { exampleBank with Nouns := ["fox".toList] }

/-- A word with its first rune upper-cased. -/
def upperFirst (U : UnicodeTables) : List Char → List Char
  | [] => []
  | c :: cs => unicodeToTitle U c :: cs

/-- A word bank that allows repeats and whose only noun has an upper-case second letter. -/
def mixedCaseBank : HHash :=
  { exampleBank with Nouns := ["aB".toList], AllowRepeats := true }

/-- The pattern made of sixty-four `%n` tokens. -/
def sixtyFourNouns : List Char :=
  (List.replicate 64 "%n".toList).flatten

/-- The example bank set to report the collision rate, before any pattern is set. -/
def reportingBank : HHash :=
  { exampleBank with CalculateCollisionRate := true }

/-- A pattern in which no `%` is followed at once by another `%`. -/
def NoDoublePercent (src : List Char) : Prop :=
  ¬ ['%', '%'] <:+: src

/-- A call made on one `HHash` instance. -/
inductive Call where
  | InitPattern (pattern : List Char)
  | HashUint (seed : Nat)
deriving DecidableEq, Repr

/-- A sequence of calls on one instance, each made on the hasher the call before it left:
the hasher at the end and what each `HashUint` call reported, in order. -/
def runCalls (U : UnicodeTables) (fuel : Nat) : HHash → List Call →
    Except Fault (HHash × List (Option Nat))
  | hasher, [] => .ok (hasher, [])
  | hasher, .InitPattern pattern :: calls => runCalls U fuel (InitPattern hasher pattern) calls
  | hasher, .HashUint seed :: calls =>
    match HashUint U fuel hasher seed with
    | .error e => .error e
    | .ok r =>
      match runCalls U fuel r.hasher calls with
      | .error e => .error e
      | .ok (hasher1, reports) => .ok (hasher1, r.reported :: reports)

/-- The constant `defaultPattern`. -/
def defaultPattern : List Char := "%A%V{G}%N".toList

/-- The result of `regexp.Compile(patternRegex)`, `none` for a nil error: the constant is a
well-formed expression (a `{` that opens no repetition is a literal), so it compiles. -/
def compilePatternRegex : Option String :=
  none

/-- The method `InitPattern` together with the error it returns, given the error of
`regexp.Compile(patternRegex)`: a compile error is returned before the hasher is touched,
and otherwise the fields are set and the error is nil. -/
def InitPatternResult (compileError : Option String) (hasher : HHash) (pattern : List Char) :
    HHash × Option String :=
  match compileError with
  | some err => (hasher, some err)
  | none => (InitPattern hasher pattern, none)

/-- The bytes of the Go string that holds a text. A Go string is a sequence of bytes and
holds text in UTF-8; the bytes of a character are those that the encoder
`String.utf8EncodeChar` of the core library writes. -/
def utf8Bytes (s : List Char) : List Nat :=
  s.flatMap fun c => (String.utf8EncodeChar c).map UInt8.toNat

/-- The function `xxhash.Sum64String` on the bytes of its string argument, whether they are
valid UTF-8 or not: the library computes it as `Sum64` over those bytes, without
decoding them. -/
def Sum64String (s : List Nat) : Nat :=
  xxhash.Sum64 s

/-- The method `HashString`, on the bytes of its string argument. -/
def HashString (U : UnicodeTables) (fuel : Nat) (hasher : HHash) (s : List Nat) :
    Except Fault HashResult :=
  HashUint U fuel hasher (Sum64String s)

/-- The method `HashBytes`. -/
def HashBytes (U : UnicodeTables) (fuel : Nat) (hasher : HHash) (bytes : List Nat) :
    Except Fault HashResult :=
  HashUint U fuel hasher (xxhash.Sum64 bytes)

/-- Spec side, `utf8_bytes` of one code point, as the table of the UTF-8 standard gives
it: one byte `0xxxxxxx` below `0x80`, two bytes `110xxxxx 10xxxxxx` below `0x800`, three
bytes `1110xxxx 10xxxxxx 10xxxxxx` below `0x10000`, and four bytes
`11110xxx 10xxxxxx 10xxxxxx 10xxxxxx` from there on. -/
def utf8_bytes_of (n : Nat) : List Nat :=
  if n < 0x80 then [n]
  else if n < 0x800 then [0xC0 + n / 0x40, 0x80 + n % 0x40]
  else if n < 0x10000 then [0xE0 + n / 0x1000, 0x80 + n / 0x40 % 0x40, 0x80 + n % 0x40]
  else [0xF0 + n / 0x40000, 0x80 + n / 0x1000 % 0x40, 0x80 + n / 0x40 % 0x40,
    0x80 + n % 0x40]

/-- Spec side, `utf8_bytes(s)`: the UTF-8 encoding of a text, character by character. -/
def utf8_bytes (s : List Char) : List Nat :=
  s.flatMap fun c => utf8_bytes_of c.toNat

/-- The method `bufio.Reader.ReadString('\n')` on the input not yet read: the line up to and
including the first newline, the input left after it, and whether the error is `io.EOF`,
which it is when the input ends before a newline (the line is then what was left). -/
def ReadString : List Char → List Char × List Char × Bool
  | [] => ([], [], true)
  | c :: cs =>
    if c = '\n' then ([c], cs, false)
    else ((c :: (ReadString cs).1), (ReadString cs).2.1, (ReadString cs).2.2)

/-- The loop of `hashPipedStream` over the input not yet read; the first argument bounds
the number of iterations and is more than the length of the input. The strings are texts,
and `HashString` receives the bytes that hold `lastHashValue + line`. -/
def pipedLoop (U : UnicodeTables) (fuel : Nat) :
    Nat → HHash → List Char → List Char → Except Fault (List Char × HHash)
  | 0, hasher, lastHashValue, _ => .ok (lastHashValue, hasher)
  | n + 1, hasher, lastHashValue, input =>
    if (ReadString input).2.2 = true then .ok (lastHashValue, hasher)
    else
      match HashString U fuel hasher (utf8Bytes (lastHashValue ++ (ReadString input).1)) with
      | .error e => .error e
      | .ok r => pipedLoop U fuel n r.hasher r.hashed (ReadString input).2.1

/-- The function `hashPipedStream` of `cmd/hhash/main.go` on the content of standard
input: the value returned and the hasher afterwards. -/
def hashPipedStream (U : UnicodeTables) (fuel : Nat) (hasher : HHash) (input : List Char) :
    Except Fault (List Char × HHash) :=
  pipedLoop U fuel (input.length + 1) hasher [] input

/-- The lines of an input that end with a newline, each with its newline, and the text
after the last newline; `cur` is the line being read. -/
def splitLines : List Char → List Char → List (List Char) × List Char
  | cur, [] => ([], cur)
  | cur, c :: cs =>
    if c = '\n' then ((cur ++ [c]) :: (splitLines [] cs).1, (splitLines [] cs).2)
    else splitLines (cur ++ [c]) cs

/-- All lines of an input in order, the last one with or without its newline. -/
def inputLines (input : List Char) : List (List Char) :=
  (splitLines [] input).1 ++
    (if (splitLines [] input).2 = [] then [] else [(splitLines [] input).2])

/-- The chain `out_i = HashString(out_(i-1) + line_i)` over a list of lines, from `out_0`. -/
def chainLines (U : UnicodeTables) (fuel : Nat) :
    HHash → List Char → List (List Char) → Except Fault (List Char × HHash)
  | hasher, out, [] => .ok (out, hasher)
  | hasher, out, line :: lines =>
    match HashString U fuel hasher (utf8Bytes (out ++ line)) with
    | .error e => .error e
    | .ok r => chainLines U fuel r.hasher r.hashed lines

/-- The example bank initialised with the default pattern. -/
def exampleDefault : HHash :=
  InitPattern exampleBank defaultPattern

/-! ## The regular expression and the replacement loop -/

theorem matchParameter_some {s p after : List Char} (h : matchParameter s = some (p, after)) :
    s = '{' :: (p ++ '}' :: after) ∧ p ≠ [] ∧ ∀ c ∈ p, isParameterChar c = true := by
  cases s with
  | nil => simp [matchParameter] at h
  | cons b rest =>
    simp only [matchParameter] at h
    split at h
    · rename_i hb
      split at h
      · simp at h
      · rename_i d after1 hd
        split at h
        · rename_i hc
          simp only [Option.some.injEq, Prod.mk.injEq] at h
          obtain ⟨hp, ha⟩ := h
          subst hp; subst ha
          refine ⟨?_, hc.2, ?_⟩
          · rw [hb, ← hc.1, ← hd, List.takeWhile_append_dropWhile]
          · intro c hcmem
            exact List.mem_takeWhile_imp hcmem
        · simp at h
    · simp at h

theorem matchParameter_closed {p : List Char} (hne : p ≠ [])
    (hall : ∀ c ∈ p, isParameterChar c = true) :
    matchParameter ('{' :: (p ++ ['}'])) = some (p, []) := by
  have hd : (p ++ ['}']).dropWhile isParameterChar = ['}'] := by
    rw [List.dropWhile_append_of_pos hall]
    simp [List.dropWhile, isParameterChar]
  have ht : (p ++ ['}']).takeWhile isParameterChar = p := by
    rw [List.takeWhile_append_of_pos hall]
    have : List.takeWhile isParameterChar ['}'] = [] := by
      simp [List.takeWhile, isParameterChar]
    rw [this, List.append_nil]
  simp only [matchParameter, hd, ht]
  simp [hne]

theorem matchToken_some {s : List Char} {parts : Submatch} {rest : List Char}
    (h : matchToken s = some (parts, rest)) :
    s = parts.token ++ rest ∧ matchToken parts.token = some (parts, []) := by
  match s, h with
  | a :: c :: tl, h =>
    simp only [matchToken] at h
    split at h
    · rename_i hc
      split at h
      · rename_i p after hp
        simp only [Option.some.injEq, Prod.mk.injEq] at h
        obtain ⟨h1, h2⟩ := h
        subst h1; subst h2
        obtain ⟨htl, hne, hall⟩ := matchParameter_some hp
        refine ⟨?_, ?_⟩
        · simp [hc.1, htl]
        · simp [matchToken, hc.2, matchParameter_closed hne hall]
      · rename_i hp
        simp only [Option.some.injEq, Prod.mk.injEq] at h
        obtain ⟨h1, h2⟩ := h
        subst h1; subst h2
        refine ⟨by simp [hc.1], ?_⟩
        simp [matchToken, hc.2, matchParameter]
    · simp at h
  | [], h => simp [matchToken] at h
  | [_], h => simp [matchToken] at h

theorem FindStringSubmatch_token {s : List Char} {parts : Submatch} {rest : List Char}
    (h : matchToken s = some (parts, rest)) : FindStringSubmatch parts.token = some parts := by
  have h2 := (matchToken_some h).2
  cases hp : parts.token with
  | nil => rw [hp] at h2; simp [matchToken] at h2
  | cons c cs =>
    rw [hp] at h2
    simp [FindStringSubmatch, h2]

theorem segmentsWith_matched : ∀ (n : Nat) (src : List Char),
    ∀ seg ∈ segmentsWith matchToken n src, seg.Matched
  | 0, src, seg, h => by
    simp only [segmentsWith, List.mem_map] at h
    obtain ⟨c, _, rfl⟩ := h
    trivial
  | n + 1, [], seg, h => by simp [segmentsWith] at h
  | n + 1, c :: cs, seg, h => by
    simp only [segmentsWith] at h
    split at h
    · rename_i parts rest hm
      rcases List.mem_cons.1 h with rfl | h
      · exact FindStringSubmatch_token hm
      · exact segmentsWith_matched n rest seg h
    · rcases List.mem_cons.1 h with rfl | h
      · trivial
      · exact segmentsWith_matched n cs seg h

theorem renderSegments_literals {σ : Type}
    (repl : σ → List Char → Except Fault (List Char × σ)) (st : σ) :
    ∀ src : List Char, renderSegments repl st (src.map .literal) = .ok (src, st)
  | [] => rfl
  | c :: cs => by
    simp only [List.map_cons, renderSegments, renderSegments_literals repl st cs]

/-- The replacement loop is the walk over the segments of the source. -/
theorem replaceAll_eq_renderSegments {σ : Type}
    (repl : σ → List Char → Except Fault (List Char × σ)) :
    ∀ (n : Nat) (st : σ) (src : List Char),
      replaceAll repl n st src = renderSegments repl st (segmentsWith matchToken n src)
  | 0, st, src => by
    simp only [replaceAll, segmentsWith, renderSegments_literals]
  | n + 1, st, [] => rfl
  | n + 1, st, c :: cs => by
    simp only [replaceAll, segmentsWith]
    split
    · rename_i parts rest hm
      simp only [renderSegments]
      cases hr : repl st parts.token with
      | error e => rfl
      | ok v =>
        obtain ⟨word, st1⟩ := v
        simp only [replaceAll_eq_renderSegments repl n st1 rest]
    · simp only [renderSegments, replaceAll_eq_renderSegments repl n st cs]

theorem ReplaceAllStringFunc_eq {σ : Type}
    (repl : σ → List Char → Except Fault (List Char × σ)) (st : σ) (src : List Char) :
    ReplaceAllStringFunc repl st src = renderSegments repl st (segments src) :=
  replaceAll_eq_renderSegments repl src.length st src

/-! ## Rendering depends on the configuration only -/

theorem sameConfig_refl (h : HHash) : SameConfig h h :=
  ⟨rfl, rfl, rfl, rfl, rfl, rfl, rfl, rfl, rfl⟩

theorem sameConfig_symm {h1 h2 : HHash} (h : SameConfig h1 h2) : SameConfig h2 h1 := by
  obtain ⟨a, b, c, d, e, f, g, i, j⟩ := h
  exact ⟨a.symm, b.symm, c.symm, d.symm, e.symm, f.symm, g.symm, i.symm, j.symm⟩

theorem sameConfig_trans {h1 h2 h3 : HHash} (h : SameConfig h1 h2) (k : SameConfig h2 h3) :
    SameConfig h1 h3 := by
  obtain ⟨a, b, c, d, e, f, g, i, j⟩ := h
  obtain ⟨a1, b1, c1, d1, e1, f1, g1, i1, j1⟩ := k
  exact ⟨a.trans a1, b.trans b1, c.trans c1, d.trans d1, e.trans e1, f.trans f1, g.trans g1,
    i.trans i1, j.trans j1⟩

theorem WordsForType_congr {h1 h2 : HHash} (h : SameConfig h1 h2) (t : WordType) :
    WordsForType h1 t = WordsForType h2 t := by
  obtain ⟨_, _, c, d, e, f, g, i, _⟩ := h
  cases t <;> simp [WordsForType, *]

theorem hashForWordType_eq_of_bank {h1 h2 : HHash}
    (hw : ∀ t, WordsForType h1 t = WordsForType h2 t)
    (ha : h1.AllowRepeats = h2.AllowRepeats) (fuel : Nat) (t : WordType) (prev : Nat) :
    hashForWordType fuel h1 t prev = hashForWordType fuel h2 t prev := by
  simp only [hashForWordType, hw t, ha]

theorem tokenWord_eq_of_bank (U : UnicodeTables) (fuel : Nat) {h1 h2 : HHash}
    (hw : ∀ t, WordsForType h1 t = WordsForType h2 t)
    (ha : h1.AllowRepeats = h2.AllowRepeats) (t : WordType) (c : WordCase) (prev : Nat) :
    tokenWord U fuel h1 t c prev = tokenWord U fuel h2 t c prev := by
  simp only [tokenWord, hashForWordType_eq_of_bank hw ha, hw t]

theorem renderSpec_eq_of_bank (U : UnicodeTables) (fuel : Nat) {h1 h2 : HHash}
    (hw : ∀ t, WordsForType h1 t = WordsForType h2 t)
    (ha : h1.AllowRepeats = h2.AllowRepeats) : ∀ (segs : List Segment) (seed : Nat),
    renderSpec U fuel h1 seed segs = renderSpec U fuel h2 seed segs
  | [], _ => rfl
  | .literal c :: segs, seed => by
    simp only [renderSpec, renderSpec_eq_of_bank U fuel hw ha segs]
  | .token parts :: segs, seed => by
    simp only [renderSpec, tokenWord_eq_of_bank U fuel hw ha,
      renderSpec_eq_of_bank U fuel hw ha segs]

theorem hashForWordType_congr {h1 h2 : HHash} (h : SameConfig h1 h2) (fuel : Nat)
    (t : WordType) (prev : Nat) :
    hashForWordType fuel h1 t prev = hashForWordType fuel h2 t prev :=
  hashForWordType_eq_of_bank (WordsForType_congr h) h.2.2.2.2.2.2.2.2 fuel t prev

theorem renderSpec_congr {h1 h2 : HHash} (h : SameConfig h1 h2) (U : UnicodeTables)
    (fuel : Nat) (segs : List Segment) (seed : Nat) :
    renderSpec U fuel h1 seed segs = renderSpec U fuel h2 seed segs :=
  renderSpec_eq_of_bank U fuel (WordsForType_congr h) h.2.2.2.2.2.2.2.2 segs seed

theorem touchedSizes_congr {h1 h2 : HHash} (h : SameConfig h1 h2) (U : UnicodeTables) :
    ∀ segs : List Segment, touchedSizes U h1 segs = touchedSizes U h2 segs
  | [] => rfl
  | .literal c :: segs => by
    simp only [touchedSizes, touchedSizes_congr h U segs]
  | .token parts :: segs => by
    simp only [touchedSizes, WordsForType_congr h, touchedSizes_congr h U segs]

theorem recordChoices_sameConfig (h : HHash) (n : Nat) : SameConfig (recordChoices h n) h := by
  unfold recordChoices
  split
  · split
    · exact ⟨rfl, rfl, rfl, rfl, rfl, rfl, rfl, rfl, rfl⟩
    · exact sameConfig_refl h
  · exact sameConfig_refl h

theorem recordAll_sameConfig : ∀ (sizes : List Nat) (h : HHash), SameConfig (recordAll h sizes) h
  | [], h => sameConfig_refl h
  | n :: sizes, h => by
    have := recordAll_sameConfig sizes (recordChoices h n)
    exact sameConfig_trans this (recordChoices_sameConfig h n)

theorem recordAll_cons (h : HHash) (n : Nat) (sizes : List Nat) :
    recordAll h (n :: sizes) = recordAll (recordChoices h n) sizes := rfl

/-! ## The word of one token -/

theorem wordForToken_ok {U : UnicodeTables} {fuel : Nat} {h : HHash} {t : WordType}
    {c : WordCase} {seed : Nat} {r : List Char × Nat × HHash}
    (hr : wordForToken U fuel h t c seed = .ok r) :
    tokenWord U fuel h t c seed = some (r.1, r.2.1) ∧
      r.2.2 = recordChoices h (WordsForType h t).length := by
  unfold wordForToken at hr
  unfold tokenWord
  cases hh : hashForWordType fuel h t seed with
  | error e => rw [hh] at hr; simp at hr
  | ok hash =>
    rw [hh] at hr
    simp only at hr ⊢
    split at hr
    · simp at hr
    · cases hw : (WordsForType h t)[hash % (WordsForType h t).length]? with
      | none => rw [hw] at hr; simp at hr
      | some word =>
        rw [hw] at hr
        simp only [Except.ok.injEq] at hr
        subst hr
        exact ⟨rfl, rfl⟩

theorem wordForToken_error {U : UnicodeTables} {fuel : Nat} {h : HHash} {t : WordType}
    {c : WordCase} {seed : Nat} {e : Fault}
    (hr : wordForToken U fuel h t c seed = .error e) :
    tokenWord U fuel h t c seed = none := by
  unfold wordForToken at hr
  unfold tokenWord
  cases hh : hashForWordType fuel h t seed with
  | error e => rfl
  | ok hash =>
    rw [hh] at hr
    simp only at hr ⊢
    split at hr
    · rename_i h0
      rw [List.length_eq_zero] at h0
      simp [h0]
    · cases hw : (WordsForType h t)[hash % (WordsForType h t).length]? with
      | none => rfl
      | some word => rw [hw] at hr; simp at hr

/-! ## The source's rendering against the specification's -/

theorem tokenReplacer_matched (U : UnicodeTables) (fuel : Nat) (st : HHash × Nat)
    {parts : Submatch} (hm : FindStringSubmatch parts.token = some parts) :
    tokenReplacer U fuel st parts.token =
      match toWordType U parts.wordCode parts.parameter with
      | none => .ok (parts.token, st)
      | some (wordType, wordCase) =>
        match wordForToken U fuel st.1 wordType wordCase st.2 with
        | .error e => .error e
        | .ok (word, seed, hasher) => .ok (word, (hasher, seed)) := by
  simp only [tokenReplacer, hm]

/-- The walk of `tokenReplacer` over matched segments returns what the specification's
rendering returns and leaves the hasher with the touched sizes recorded; it stops with a
fault exactly when the specification's rendering has no result. -/
theorem renderSegments_tokenReplacer (U : UnicodeTables) (fuel : Nat) :
    ∀ (segs : List Segment), (∀ seg ∈ segs, seg.Matched) → ∀ (h : HHash) (seed : Nat),
      (∀ e, renderSegments (tokenReplacer U fuel) (h, seed) segs = .error e →
        renderSpec U fuel h seed segs = none) ∧
      (∀ out st, renderSegments (tokenReplacer U fuel) (h, seed) segs = .ok (out, st) →
        renderSpec U fuel h seed segs = some out ∧
          st.1 = recordAll h (touchedSizes U h segs))
  | [], _, h, seed => by
    constructor
    · intro e he; simp [renderSegments] at he
    · intro out st he
      simp only [renderSegments, Except.ok.injEq, Prod.mk.injEq] at he
      obtain ⟨rfl, rfl⟩ := he
      exact ⟨rfl, rfl⟩
  | .literal c :: segs, hall, h, seed => by
    have ih := renderSegments_tokenReplacer U fuel segs
      (fun seg hs => hall seg (List.mem_cons_of_mem _ hs)) h seed
    simp only [renderSegments, renderSpec, touchedSizes]
    cases hr : renderSegments (tokenReplacer U fuel) (h, seed) segs with
    | error e =>
      simp [ih.1 e hr]
    | ok v =>
      obtain ⟨out1, st1⟩ := v
      obtain ⟨h1, h2⟩ := ih.2 out1 st1 hr
      constructor
      · intro e he; simp at he
      · intro out st he
        simp only [Except.ok.injEq, Prod.mk.injEq] at he
        obtain ⟨rfl, rfl⟩ := he
        simp [h1, h2]
  | .token parts :: segs, hall, h, seed => by
    have hm : FindStringSubmatch parts.token = some parts :=
      hall (.token parts) (List.mem_cons_self _ _)
    have hall1 : ∀ seg ∈ segs, seg.Matched := fun seg hs => hall seg (List.mem_cons_of_mem _ hs)
    simp only [renderSegments, renderSpec, touchedSizes, tokenReplacer_matched U fuel (h, seed) hm]
    cases ht : toWordType U parts.wordCode parts.parameter with
    | none =>
      have ih := renderSegments_tokenReplacer U fuel segs hall1 h seed
      simp only
      cases hr : renderSegments (tokenReplacer U fuel) (h, seed) segs with
      | error e => simp [ih.1 e hr]
      | ok v =>
        obtain ⟨out1, st1⟩ := v
        obtain ⟨h1, h2⟩ := ih.2 out1 st1 hr
        constructor
        · intro e he; simp at he
        · intro out st he
          simp only [Except.ok.injEq, Prod.mk.injEq] at he
          obtain ⟨rfl, rfl⟩ := he
          simp [h1, h2]
    | some tc =>
      obtain ⟨t, c⟩ := tc
      simp only
      cases hw : wordForToken U fuel h t c seed with
      | error e => simp [wordForToken_error hw]
      | ok r =>
        obtain ⟨word, hash, h'⟩ := r
        obtain ⟨hw1, hw2⟩ := wordForToken_ok hw
        simp only at hw1 hw2
        subst hw2
        have hc := recordChoices_sameConfig h (WordsForType h t).length
        have ih := renderSegments_tokenReplacer U fuel segs hall1
          (recordChoices h (WordsForType h t).length) hash
        rw [renderSpec_congr hc, touchedSizes_congr hc] at ih
        simp only [hw1]
        cases hr : renderSegments (tokenReplacer U fuel)
            (recordChoices h (WordsForType h t).length, hash) segs with
        | error e => simp [ih.1 e hr]
        | ok v =>
          obtain ⟨out1, st1⟩ := v
          obtain ⟨h1, h2⟩ := ih.2 out1 st1 hr
          constructor
          · intro e he; simp at he
          · intro out st he
            simp only [Except.ok.injEq, Prod.mk.injEq] at he
            obtain ⟨rfl, rfl⟩ := he
            simp [h1, h2, recordAll_cons]

/-! ## `HashUint` in terms of the specification's rendering -/

theorem report_hashed (out : List Char) (h : HHash) : (report out h).hashed = out := by
  unfold report
  split
  · split <;> rfl
  · rfl

theorem report_sameConfig (out : List Char) (h : HHash) : SameConfig (report out h).hasher h := by
  unfold report
  split
  · split
    · exact ⟨rfl, rfl, rfl, rfl, rfl, rfl, rfl, rfl, rfl⟩
    · exact sameConfig_refl h
  · exact sameConfig_refl h

/-- A call of `HashUint` returns exactly when the specification's rendering of the
pattern's segments has a result; it then returns that string and reports on the hasher
with the touched sizes recorded. -/
theorem HashUint_ok_iff (U : UnicodeTables) (fuel : Nat) (h : HHash) (seed : Nat)
    (r : HashResult) :
    HashUint U fuel h seed = .ok r ↔
      h.regexp = true ∧ ∃ out, renderSpec U fuel h seed (segments h.pattern) = some out ∧
        r = report out (recordAll h (touchedSizes U h (segments h.pattern))) := by
  have key := renderSegments_tokenReplacer U fuel (segments h.pattern)
    (segmentsWith_matched _ _) h seed
  unfold HashUint
  rw [ReplaceAllStringFunc_eq]
  cases hre : h.regexp with
  | false => simp
  | true =>
    simp only [Bool.true_eq_false, if_false, true_and]
    cases hr : renderSegments (tokenReplacer U fuel) (h, seed) (segments h.pattern) with
    | error e =>
      simp [key.1 e hr]
    | ok v =>
      obtain ⟨out, st⟩ := v
      obtain ⟨h1, h2⟩ := key.2 out st hr
      obtain ⟨hs, sd⟩ := st
      simp only at h2
      subst h2
      simp only [Except.ok.injEq, h1, Option.some.injEq, exists_eq_left']
      exact eq_comm

theorem HashUint_hashed_iff (U : UnicodeTables) (fuel : Nat) (h : HHash) (seed : Nat)
    (hre : h.regexp = true) (out : List Char) :
    (∃ r, HashUint U fuel h seed = .ok r ∧ r.hashed = out) ↔
      renderSpec U fuel h seed (segments h.pattern) = some out := by
  constructor
  · rintro ⟨r, hr, rfl⟩
    obtain ⟨_, out, ho, rfl⟩ := (HashUint_ok_iff U fuel h seed r).1 hr
    rw [report_hashed]; exact ho
  · intro ho
    exact ⟨_, (HashUint_ok_iff U fuel h seed _).2 ⟨hre, out, ho, rfl⟩, report_hashed _ _⟩

theorem HashUint_sameConfig {U : UnicodeTables} {fuel : Nat} {h : HHash} {seed : Nat}
    {r : HashResult} (hr : HashUint U fuel h seed = .ok r) : SameConfig r.hasher h := by
  obtain ⟨_, out, _, rfl⟩ := (HashUint_ok_iff U fuel h seed r).1 hr
  exact sameConfig_trans (report_sameConfig _ _) (recordAll_sameConfig _ _)

theorem HashUint_hashed_congr (U : UnicodeTables) (fuel : Nat) {h1 h2 : HHash}
    (hc : SameConfig h1 h2) (seed : Nat) (out : List Char) :
    (∃ r, HashUint U fuel h1 seed = .ok r ∧ r.hashed = out) ↔
      (∃ r, HashUint U fuel h2 seed = .ok r ∧ r.hashed = out) := by
  cases hre : h1.regexp with
  | false =>
    have hre2 : h2.regexp = false := by rw [← hc.2.1]; exact hre
    simp [HashUint, hre, hre2]
  | true =>
    have hre2 : h2.regexp = true := by rw [← hc.2.1]; exact hre
    rw [HashUint_hashed_iff U fuel h1 seed hre, HashUint_hashed_iff U fuel h2 seed hre2,
      renderSpec_congr hc, hc.1]

/-! ## The re-hash loop -/

theorem rehash_zero (n v c p : Nat) :
    rehash n 0 v c p = if c = p then .error .outOfFuel else .ok v := by
  unfold rehash
  rfl

theorem rehash_succ (n fuel v c p : Nat) :
    rehash n (fuel + 1) v c p =
      if c = p then rehash n fuel (mix v) (mix v % n) c else .ok v := by
  rw [rehash]

/-- The re-hash loop, entered with `newHash = v` and `currentIndex = v mod n`, returns `w`
exactly when `w` is the first of `v, mix v, mix (mix v), …` whose index differs from
`previousIndex`, found within `fuel` iterations. -/
theorem rehash_ok_iff (n p : Nat) (fuel : Nat) : ∀ (v w : Nat),
    rehash n fuel v (v % n) p = .ok w ↔
      ∃ k, k ≤ fuel ∧ w = mix^[k] v ∧ w % n ≠ p ∧ ∀ j, j < k → mix^[j] v % n = p := by
  induction fuel with
  | zero =>
    intro v w
    rw [rehash_zero]
    by_cases hv : v % n = p
    · rw [if_pos hv]
      constructor
      · intro h; simp at h
      · rintro ⟨k, hk, hw, hne, _⟩
        have hk0 : k = 0 := Nat.le_zero.1 hk
        rw [hk0, Function.iterate_zero_apply] at hw
        rw [hw] at hne
        exact absurd hv hne
    · rw [if_neg hv]
      constructor
      · intro hw
        have hw2 : v = w := by simpa using hw
        refine ⟨0, le_refl _, ?_, ?_, fun j hj => absurd hj (Nat.not_lt_zero j)⟩
        · rw [Function.iterate_zero_apply]; exact hw2.symm
        · rw [← hw2]; exact hv
      · rintro ⟨k, hk, hw, _, _⟩
        have hk0 : k = 0 := Nat.le_zero.1 hk
        rw [hk0, Function.iterate_zero_apply] at hw
        rw [hw]
  | succ fuel ih =>
    intro v w
    rw [rehash_succ]
    by_cases hv : v % n = p
    · rw [if_pos hv, hv, ih (mix v) w]
      constructor
      · rintro ⟨k, hk, hw, hne, hall⟩
        refine ⟨k + 1, Nat.succ_le_succ hk, ?_, hne, ?_⟩
        · rw [Function.iterate_succ_apply]; exact hw
        · intro j hj
          cases j with
          | zero => rw [Function.iterate_zero_apply]; exact hv
          | succ j =>
            rw [Function.iterate_succ_apply]
            exact hall j (Nat.lt_of_succ_lt_succ hj)
      · rintro ⟨k, hk, hw, hne, hall⟩
        cases k with
        | zero =>
          rw [Function.iterate_zero_apply] at hw
          rw [hw] at hne
          exact absurd hv hne
        | succ k =>
          refine ⟨k, Nat.le_of_succ_le_succ hk, ?_, hne, ?_⟩
          · rw [← Function.iterate_succ_apply]; exact hw
          · intro j hj
            rw [← Function.iterate_succ_apply]
            exact hall (j + 1) (Nat.succ_lt_succ hj)
    · rw [if_neg hv]
      constructor
      · intro hw
        have hw2 : v = w := by simpa using hw
        refine ⟨0, Nat.zero_le _, ?_, ?_, fun j hj => absurd hj (Nat.not_lt_zero j)⟩
        · rw [Function.iterate_zero_apply]; exact hw2.symm
        · rw [← hw2]; exact hv
      · rintro ⟨k, _, hw, _, hall⟩
        cases k with
        | zero =>
          rw [Function.iterate_zero_apply] at hw
          rw [hw]
        | succ k =>
          have h0 := hall 0 (Nat.succ_pos k)
          rw [Function.iterate_zero_apply] at h0
          exact absurd h0 hv

/-- The re-hash loop stops only by returning or by running out of iterations. -/
theorem rehash_error (n : Nat) (fuel : Nat) : ∀ (v c p : Nat) (e : Fault),
    rehash n fuel v c p = .error e → e = .outOfFuel := by
  induction fuel with
  | zero =>
    intro v c p e
    rw [rehash_zero]
    split
    · intro h; simp only [Except.error.injEq] at h; exact h.symm
    · intro h; simp at h
  | succ fuel ih =>
    intro v c p e
    rw [rehash_succ]
    split
    · exact ih _ _ _ e
    · intro h; simp at h

theorem hashForWordType_noRepeats (fuel : Nat) (h : HHash) (t : WordType) (prev : Nat)
    (hrep : h.AllowRepeats = false) (hn : (WordsForType h t).length ≠ 0) :
    hashForWordType fuel h t prev =
      rehash (WordsForType h t).length fuel (mix prev)
        (mix prev % (WordsForType h t).length) (prev % (WordsForType h t).length) := by
  simp only [hashForWordType, hrep, Bool.not_false, if_true, hn, if_false]

theorem hashForWordType_noRepeats_ok_iff (fuel : Nat) (h : HHash) (t : WordType)
    (prev v : Nat) (hrep : h.AllowRepeats = false) (hn : 1 ≤ (WordsForType h t).length) :
    hashForWordType fuel h t prev = .ok v ↔
      ∃ k, 1 ≤ k ∧ k ≤ fuel + 1 ∧ v = mix^[k] prev ∧
        v % (WordsForType h t).length ≠ prev % (WordsForType h t).length ∧
        ∀ j, 1 ≤ j → j < k →
          mix^[j] prev % (WordsForType h t).length = prev % (WordsForType h t).length := by
  rw [hashForWordType_noRepeats fuel h t prev hrep (Nat.one_le_iff_ne_zero.1 hn), rehash_ok_iff]
  constructor
  · rintro ⟨k, hk, hw, hne, hall⟩
    refine ⟨k + 1, Nat.succ_le_of_lt (Nat.succ_pos k), Nat.succ_le_succ hk, ?_, hne, ?_⟩
    · rw [Function.iterate_succ_apply]; exact hw
    · intro j hj1 hj2
      cases j with
      | zero => exact absurd hj1 (Nat.not_succ_le_zero 0)
      | succ j =>
        rw [Function.iterate_succ_apply]
        exact hall j (Nat.lt_of_succ_lt_succ hj2)
  · rintro ⟨k, hk1, hk2, hw, hne, hall⟩
    cases k with
    | zero => exact absurd hk1 (Nat.not_succ_le_zero 0)
    | succ k =>
      refine ⟨k, Nat.le_of_succ_le_succ hk2, ?_, hne, ?_⟩
      · rw [← Function.iterate_succ_apply]; exact hw
      · intro j hj
        rw [← Function.iterate_succ_apply]
        exact hall (j + 1) (Nat.succ_le_succ (Nat.zero_le j)) (Nat.succ_lt_succ hj)

/-- C2: with `AllowRepeats` false and a word list of length `n >= 2` for the token's type,
`hashForWordType(t, prev)` returns `v` exactly when `v = mix^k(prev)` for the least
`k >= 1` with `mix^k(prev) mod n != prev mod n` (and the loop is given its `k - 1`
retries); in particular `v mod n != prev mod n`. Here `mix` hashes the eight little-endian
bytes of its argument. -/
theorem hashForWordType_least_iterate (fuel : Nat) (h : HHash) (t : WordType) (prev v : Nat)
    (hrep : h.AllowRepeats = false) (hn : 2 ≤ (WordsForType h t).length) :
    (hashForWordType fuel h t prev = .ok v ↔
      ∃ k, 1 ≤ k ∧ k ≤ fuel + 1 ∧ v = mix^[k] prev ∧
        v % (WordsForType h t).length ≠ prev % (WordsForType h t).length ∧
        ∀ j, 1 ≤ j → j < k →
          mix^[j] prev % (WordsForType h t).length = prev % (WordsForType h t).length) ∧
      ∀ x, mix x = xxhash.Sum64 (PutUint64 x) :=
  ⟨hashForWordType_noRepeats_ok_iff fuel h t prev v hrep (Nat.le_of_succ_le hn),
    fun _ => Eq.refl _⟩

set_option maxRecDepth 100000 in
/-- Witness for `hashForWordType_least_iterate`: with two nouns and previous hash 1 the
first re-hash keeps the index of 1 and the second one leaves it. -/
theorem hashForWordType_least_iterate_witness :
    hashForWordType 1 exampleBank .Noun 1 = .ok (mix (mix 1)) :=
  ((hashForWordType_least_iterate 1 exampleBank .Noun 1 (mix (mix 1)) (Eq.refl _)
      (by decide)).1).2
    ⟨2, by decide, by decide, by rw [Function.iterate_succ_apply, Function.iterate_one],
      by decide, fun j h1 h2 => by
        have hj : j = 1 := by omega
        rw [hj, Function.iterate_one]
        decide⟩

/-! ## Consecutive tokens of one type -/

theorem toWordType_N (U : UnicodeTables) : toWordType U ['N'] [] = some (.Noun, .Title) :=
  rfl

theorem segments_NN :
    segments "%N%N".toList = [.token ⟨"%N".toList, ['N'], []⟩, .token ⟨"%N".toList, ['N'], []⟩] := by
  decide

theorem tokenWord_some {U : UnicodeTables} {fuel : Nat} {h : HHash} {t : WordType}
    {c : WordCase} {prev : Nat} {w : List Char} {v : Nat}
    (hw : tokenWord U fuel h t c prev = some (w, v)) :
    hashForWordType fuel h t prev = .ok v ∧
      ∃ a, (WordsForType h t)[v % (WordsForType h t).length]? = some a ∧ w = applyCase U c a := by
  unfold tokenWord at hw
  cases hh : hashForWordType fuel h t prev with
  | error e => rw [hh] at hw; simp at hw
  | ok x =>
    rw [hh] at hw
    simp only at hw
    cases ha : (WordsForType h t)[x % (WordsForType h t).length]? with
    | none => rw [ha] at hw; simp at hw
    | some a =>
      rw [ha] at hw
      simp only [Option.some.injEq, Prod.mk.injEq] at hw
      obtain ⟨h1, h2⟩ := hw
      subst h2
      exact ⟨rfl, a, ha, h1.symm⟩

theorem nodup_map_ne {α β : Type} (f : α → β) (l : List α) (hnd : (l.map f).Nodup)
    {i j : Nat} {a b : α} (hi : l[i]? = some a) (hj : l[j]? = some b) (hij : i ≠ j) :
    f a ≠ f b := by
  intro hab
  have hi2 : (l.map f)[i]? = some (f a) := by simp [hi]
  have hj2 : (l.map f)[j]? = some (f b) := by simp [hj]
  obtain ⟨hil, hie⟩ := List.getElem?_eq_some_iff.1 hi2
  obtain ⟨hjl, hje⟩ := List.getElem?_eq_some_iff.1 hj2
  have := (@List.Nodup.getElem_inj_iff _ _ hnd i hil j hjl).1 (by rw [hie, hje, hab])
  exact hij this

set_option maxRecDepth 100000 in
/-- C3, counterexample: with `AllowRepeats` false and the noun list `[fox, fox]` of length
two, the pattern `%N%N` and the seed 0 render the word `Fox` twice. -/
theorem HashUint_repeats_equal_nouns :
    repeatedNounBank.AllowRepeats = false ∧ 1 < repeatedNounBank.Nouns.length ∧
      (wordForToken asciiOnly 4 (InitPattern repeatedNounBank "%N%N".toList) .Noun .Title 0).map
          (fun w => (w.1, w.2.1)) = .ok ("Fox".toList, mix 0) ∧
      (wordForToken asciiOnly 4 (InitPattern repeatedNounBank "%N%N".toList) .Noun .Title
          (mix 0)).map (fun w => w.1) = .ok "Fox".toList ∧
      (HashUint asciiOnly 4 (InitPattern repeatedNounBank "%N%N".toList) 0).map
          (fun r => r.hashed) = .ok "FoxFox".toList := by
  decide

/-- C3 (amended): for the pattern `%N%N` with `AllowRepeats` false, every seed and every
noun list of length > 1, whenever `HashUint` returns, the two rendered words are the
title-cased entries at two different indices of the noun list; hence they differ whenever
the title-cased entries of the list are pairwise distinct. -/
theorem HashUint_noun_pair_indices_differ (U : UnicodeTables) (fuel : Nat) (h : HHash)
    (seed : Nat) (r : HashResult) (hp : h.pattern = "%N%N".toList)
    (hrep : h.AllowRepeats = false) (hn : 1 < h.Nouns.length)
    (hr : HashUint U fuel h seed = .ok r) :
    ∃ (i j : Nat) (a b : List Char), i ≠ j ∧ h.Nouns[i]? = some a ∧ h.Nouns[j]? = some b ∧
      r.hashed = stringsTitle U a ++ stringsTitle U b ∧
      ((h.Nouns.map (stringsTitle U)).Nodup → stringsTitle U a ≠ stringsTitle U b) := by
  obtain ⟨_, out, ho, rfl⟩ := (HashUint_ok_iff U fuel h seed r).1 hr
  rw [report_hashed]
  rw [hp, segments_NN] at ho
  simp only [renderSpec, toWordType_N] at ho
  cases h1 : tokenWord U fuel h .Noun .Title seed with
  | none => rw [h1] at ho; simp at ho
  | some p1 =>
    obtain ⟨w1, v1⟩ := p1
    rw [h1] at ho
    simp only at ho
    cases h2 : tokenWord U fuel h .Noun .Title v1 with
    | none => rw [h2] at ho; simp at ho
    | some p2 =>
      obtain ⟨w2, v2⟩ := p2
      rw [h2] at ho
      simp only [Option.map_some', List.append_nil, Option.some.injEq] at ho
      obtain ⟨hv1, a, ha, hw1⟩ := tokenWord_some h1
      obtain ⟨hv2, b, hb, hw2⟩ := tokenWord_some h2
      have hlen : 1 ≤ (WordsForType h .Noun).length := Nat.le_of_lt hn
      obtain ⟨_, _, _, _, hne2, _⟩ :=
        (hashForWordType_noRepeats_ok_iff fuel h .Noun v1 v2 hrep hlen).1 hv2
      refine ⟨v1 % h.Nouns.length, v2 % h.Nouns.length, a, b, fun hij => hne2 hij.symm,
        ha, hb, ?_, ?_⟩
      · rw [← ho, hw1, hw2]; rfl
      · intro hnd
        exact nodup_map_ne (stringsTitle U) h.Nouns hnd ha hb (fun hij => hne2 hij.symm)

set_option maxRecDepth 100000 in
/-- Witness for `HashUint_noun_pair_indices_differ`: the two-noun bank renders `%N%N`
from seed 0 as two different nouns. -/
theorem HashUint_noun_pair_indices_differ_witness :
    ∃ (i j : Nat) (a b : List Char), i ≠ j ∧ exampleBank.Nouns[i]? = some a ∧ exampleBank.Nouns[j]? = some b ∧
      "DogFox".toList = stringsTitle asciiOnly a ++ stringsTitle asciiOnly b ∧
      ((exampleBank.Nouns.map (stringsTitle asciiOnly)).Nodup →
        stringsTitle asciiOnly a ≠ stringsTitle asciiOnly b) :=
  HashUint_noun_pair_indices_differ asciiOnly 4 (InitPattern exampleBank "%N%N".toList) 0
    ⟨"DogFox".toList, InitPattern exampleBank "%N%N".toList, none⟩ rfl rfl (by decide)
    (by decide)

/-! ## Determinism -/

/-- C4: the string returned by `HashUint` depends only on the compiled pattern, the six word
lists, `AllowRepeats` and the seed: two hashers that agree on those (and differ arbitrarily
in `CalculateCollisionRate` and `numChoicesPerWord`) return the same string, one returning
exactly when the other does; and a second call with the same seed on the hasher left by a
first call returns the same string again. -/
theorem HashUint_depends_on_config (U : UnicodeTables) (fuel : Nat) (h1 h2 : HHash)
    (seed : Nat) (hc : SameConfig h1 h2) :
    (∀ out, (∃ r, HashUint U fuel h1 seed = .ok r ∧ r.hashed = out) ↔
        (∃ r, HashUint U fuel h2 seed = .ok r ∧ r.hashed = out)) ∧
      ∀ r, HashUint U fuel h1 seed = .ok r →
        ∃ r2, HashUint U fuel r.hasher seed = .ok r2 ∧ r2.hashed = r.hashed := by
  refine ⟨fun out => HashUint_hashed_congr U fuel hc seed out, ?_⟩
  intro r hr
  exact (HashUint_hashed_congr U fuel (HashUint_sameConfig hr) seed r.hashed).2 ⟨r, hr, rfl⟩

set_option maxRecDepth 100000 in
/-- Witness for `HashUint_depends_on_config`: a hasher that reports the collision rate and
one that does not are in the same configuration, and the second returns the string the
first one returns. -/
theorem HashUint_depends_on_config_witness :
    ∃ r, HashUint asciiOnly 4 (InitPattern exampleBank "%A%V{G}%N".toList) 3 = .ok r ∧
      r.hashed = "QuicklyEatingFox".toList :=
  ((HashUint_depends_on_config asciiOnly 4 exampleReporting
      (InitPattern exampleBank "%A%V{G}%N".toList) 3
      ⟨rfl, rfl, rfl, rfl, rfl, rfl, rfl, rfl, rfl⟩).1 "QuicklyEatingFox".toList).1
    ((HashUint_hashed_iff asciiOnly 4 exampleReporting 3 rfl "QuicklyEatingFox".toList).2
      (by decide))


/-! ## Token letters -/

theorem ascii_forall (P : Char → Prop) (hP : ∀ n, n < 128 → P (Char.ofNat n)) (c : Char)
    (hc : c.toNat ≤ 127) : P c := by
  have := hP c.toNat (Nat.lt_succ_of_le hc)
  rwa [Char.ofNat_toNat] at this

theorem unicodeToLower_ascii (U : UnicodeTables) (c : Char) (hc : c.toNat ≤ 127) :
    unicodeToLower U c = unicodeToLower asciiOnly c := by
  simp only [unicodeToLower, hc, if_true]

set_option maxRecDepth 100000 in
theorem unicodeToLower_upper_ne (U : UnicodeTables) (c : Char)
    (hc : 'A'.toNat ≤ c.toNat ∧ c.toNat ≤ 'Z'.toNat) : unicodeToLower U c ≠ c := by
  have h127 : c.toNat ≤ 127 := le_trans hc.2 (by decide)
  rw [unicodeToLower_ascii U c h127]
  exact ascii_forall
    (fun c => 'A'.toNat ≤ c.toNat ∧ c.toNat ≤ 'Z'.toNat → unicodeToLower asciiOnly c ≠ c)
    (by decide) c h127 hc

set_option maxRecDepth 100000 in
theorem unicodeToLower_lower_eq (U : UnicodeTables) (c : Char)
    (hc : 'a'.toNat ≤ c.toNat ∧ c.toNat ≤ 'z'.toNat) : unicodeToLower U c = c := by
  have h127 : c.toNat ≤ 127 := le_trans hc.2 (by decide)
  rw [unicodeToLower_ascii U c h127]
  exact ascii_forall
    (fun c => 'a'.toNat ≤ c.toNat ∧ c.toNat ≤ 'z'.toNat → unicodeToLower asciiOnly c = c)
    (by decide) c h127 hc

/-- The case that `toWordType` derives from the word code. -/
theorem toWordType_case {U : UnicodeTables} {wordCode parameter : List Char} {t : WordType}
    {c : WordCase} (h : toWordType U wordCode parameter = some (t, c)) :
    c = if wordCode = stringsToLower U wordCode then WordCase.Lower else WordCase.Title := by
  unfold toWordType at h
  simp only at h
  repeat' split at h
  all_goals
    cases h <;> first
      | rw [if_pos (by assumption)]
      | rw [if_neg (by assumption)]

theorem toWordType_eq_none_iff (U : UnicodeTables) (wordCode parameter : List Char) :
    toWordType U wordCode parameter = none ↔
      stringsToLower U wordCode ∉ [['a'], ['j'], ['n'], ['v']] := by
  unfold toWordType
  simp only [List.mem_cons, List.mem_singleton, List.not_mem_nil, or_false, not_or]
  by_cases ha : stringsToLower U wordCode = ['a']
  · simp [ha]
  · by_cases hj : stringsToLower U wordCode = ['j']
    · simp [hj]
    · by_cases hn : stringsToLower U wordCode = ['n']
      · simp [hn]
      · by_cases hv : stringsToLower U wordCode = ['v']
        · simp only [hv]
          by_cases hp : stringsToLower U parameter = ['p']
          · simp [hp]
          · by_cases hg : stringsToLower U parameter = ['g']
            · simp [hg]
            · simp [hp, hg]
        · simp [ha, hj, hn, hv]

/-- C5: for every word code and parameter, `toWordType` returns an error exactly when the
lower-cased word code is not one of a, j, n, v; otherwise the category is Adverb for a,
Adjective for j, Noun for n and, for v, VerbPast when the lower-cased parameter is p,
VerbGerund when it is g and Verb otherwise; the case is Lower when the word code equals its
lower-casing and Title when it does not, so an upper-case letter A–Z gives Title and a
lower-case letter a–z gives Lower. -/
theorem toWordType_spec (U : UnicodeTables) (wordCode parameter : List Char) :
    (toWordType U wordCode parameter = none ↔
        stringsToLower U wordCode ∉ [['a'], ['j'], ['n'], ['v']]) ∧
      (∀ t c, toWordType U wordCode parameter = some (t, c) →
        (stringsToLower U wordCode = ['a'] → t = .Adverb) ∧
        (stringsToLower U wordCode = ['j'] → t = .Adjective) ∧
        (stringsToLower U wordCode = ['n'] → t = .Noun) ∧
        (stringsToLower U wordCode = ['v'] →
          (stringsToLower U parameter = ['p'] → t = .VerbPast) ∧
          (stringsToLower U parameter = ['g'] → t = .VerbGerund) ∧
          (stringsToLower U parameter ∉ [['p'], ['g']] → t = .Verb)) ∧
        (wordCode = stringsToLower U wordCode → c = .Lower) ∧
        (wordCode ≠ stringsToLower U wordCode → c = .Title) ∧
        (∀ x, wordCode = [x] → 'A'.toNat ≤ x.toNat ∧ x.toNat ≤ 'Z'.toNat → c = .Title) ∧
        (∀ x, wordCode = [x] → 'a'.toNat ≤ x.toNat ∧ x.toNat ≤ 'z'.toNat → c = .Lower)) := by
  refine ⟨toWordType_eq_none_iff U wordCode parameter, ?_⟩
  · intro t c h
    have hcase := toWordType_case h
    refine ⟨?_, ?_, ?_, ?_, ?_, ?_, ?_, ?_⟩
    · intro ha
      simp [toWordType, ha] at h
      exact h.1.symm
    · intro hj
      simp [toWordType, hj] at h
      exact h.1.symm
    · intro hn
      simp [toWordType, hn] at h
      exact h.1.symm
    · intro hv
      refine ⟨?_, ?_, ?_⟩
      · intro hp
        simp [toWordType, hv, hp] at h
        exact h.1.symm
      · intro hg
        simp [toWordType, hv, hg] at h
        exact h.1.symm
      · intro hpg
        simp only [List.mem_cons, List.mem_singleton, List.not_mem_nil, or_false, not_or] at hpg
        simp [toWordType, hv, hpg.1, hpg.2] at h
        exact h.1.symm
    · intro he
      rw [hcase, if_pos he]
    · intro hne
      rw [hcase, if_neg hne]
    · intro x hx hup
      rw [hcase, if_neg]
      rw [hx]
      intro he
      simp only [stringsToLower, List.map_cons, List.map_nil, List.cons.injEq, and_true] at he
      exact unicodeToLower_upper_ne U x hup he.symm
    · intro x hx hlow
      rw [hcase, if_pos]
      rw [hx]
      simp only [stringsToLower, List.map_cons, List.map_nil, List.cons.injEq, and_true]
      exact (unicodeToLower_lower_eq U x hlow).symm


set_option maxRecDepth 100000 in
/-- Witness for `toWordType_spec`: the word code `q` lower-cases to none of a, j, n, v, so
`toWordType` returns its error. -/
theorem toWordType_spec_witness : toWordType asciiOnly ['q'] [] = none :=
  (toWordType_spec asciiOnly ['q'] []).1.2 (by decide)

/-! ## Cutting a pattern into segments -/

theorem matchToken_length {s : List Char} {parts : Submatch} {rest : List Char}
    (h : matchToken s = some (parts, rest)) : rest.length + 2 ≤ s.length := by
  match s, h with
  | a :: c :: tl, h =>
    simp only [matchToken] at h
    split at h
    · split at h
      · rename_i p after hp
        simp only [Option.some.injEq, Prod.mk.injEq] at h
        obtain ⟨_, h2⟩ := h
        subst h2
        obtain ⟨htl, _, _⟩ := matchParameter_some hp
        rw [htl]
        simp only [List.length_cons, List.length_append]
        omega
      · simp only [Option.some.injEq, Prod.mk.injEq] at h
        obtain ⟨_, h2⟩ := h
        subst h2
        simp
    · simp at h
  | [], h => simp [matchToken] at h
  | [_], h => simp [matchToken] at h

theorem segmentsWith_fuel : ∀ (n m : Nat) (src : List Char), src.length ≤ n → src.length ≤ m →
    segmentsWith matchToken n src = segmentsWith matchToken m src
  | 0, m, src, hn, _ => by
    have hs : src = [] := List.length_eq_zero.1 (Nat.le_zero.1 hn)
    subst hs
    cases m <;> rfl
  | n + 1, m, [], _, _ => by
    cases m <;> rfl
  | n + 1, 0, c :: cs, _, hm => by
    simp at hm
  | n + 1, m + 1, c :: cs, hn, hm => by
    simp only [segmentsWith]
    have hn1 : cs.length ≤ n := Nat.le_of_succ_le_succ hn
    have hm1 : cs.length ≤ m := Nat.le_of_succ_le_succ hm
    cases hmt : matchToken (c :: cs) with
    | none =>
      simp only
      rw [segmentsWith_fuel n m cs hn1 hm1]
    | some v =>
      obtain ⟨parts, rest⟩ := v
      simp only
      have hl := matchToken_length hmt
      simp only [List.length_cons] at hl
      rw [segmentsWith_fuel n m rest (by omega) (by omega)]

theorem segments_cons_of_none {x : Char} {l : List Char} (h : matchToken (x :: l) = none) :
    segments (x :: l) = .literal x :: segments l := by
  simp only [segments, List.length_cons, segmentsWith, h]

theorem segments_cons_of_some {x : Char} {l : List Char} {parts : Submatch}
    {rest : List Char} (h : matchToken (x :: l) = some (parts, rest)) :
    segments (x :: l) = .token parts :: segments rest := by
  have hl := matchToken_length h
  simp only [List.length_cons] at hl
  simp only [segments, List.length_cons, segmentsWith, h]
  rw [segmentsWith_fuel l.length rest.length rest (by omega) (le_refl _)]

theorem matchToken_of_ne_percent {x : Char} (l : List Char) (hx : x ≠ '%') :
    matchToken (x :: l) = none := by
  cases l with
  | nil => rfl
  | cons c tl => simp [matchToken, hx]

theorem segments_literal_prefix (after : List Char) : ∀ l : List Char, (∀ x ∈ l, x ≠ '%') →
    segments (l ++ after) = l.map .literal ++ segments after
  | [], _ => rfl
  | x :: l, h => by
    have hx : x ≠ '%' := h x (List.mem_cons_self _ _)
    rw [List.cons_append, segments_cons_of_none (matchToken_of_ne_percent _ hx),
      segments_literal_prefix after l (fun y hy => h y (List.mem_cons_of_mem _ hy))]
    rfl

theorem renderSpec_literal_prefix (U : UnicodeTables) (fuel : Nat) (h : HHash) (seed : Nat)
    (segs : List Segment) : ∀ l : List Char,
    renderSpec U fuel h seed (l.map .literal ++ segs) =
      (renderSpec U fuel h seed segs).map (l ++ ·)
  | [] => by simp
  | x :: l => by
    have ih := renderSpec_literal_prefix U fuel h seed segs l
    show renderSpec U fuel h seed (.literal x :: (l.map .literal ++ segs)) = _
    rw [renderSpec, ih, Option.map_map]
    rfl

theorem isParameterChar_ne_percent {x : Char} (h : isParameterChar x = true) : x ≠ '%' := by
  intro hx
  rw [hx] at h
  exact absurd h (by decide)

/-- The segments of a pattern that starts with a token whose letter names no category:
the rendering copies the two runes `%c` and goes on with the rest. -/
theorem renderSpec_unknown_head (U : UnicodeTables) (fuel : Nat) (h : HHash) (seed : Nat)
    (c : Char) (rest : List Char) (hc : isWordCodeChar c = true)
    (hun : stringsToLower U [c] ∉ [['a'], ['j'], ['n'], ['v']]) :
    renderSpec U fuel h seed (segments ('%' :: c :: rest)) =
      (renderSpec U fuel h seed (segments rest)).map (fun out => '%' :: c :: out) := by
  cases hp : matchParameter rest with
  | none =>
    have hm : matchToken ('%' :: c :: rest) = some (⟨['%', c], [c], []⟩, rest) := by
      simp [matchToken, hc, hp]
    rw [segments_cons_of_some hm]
    simp only [renderSpec, (toWordType_eq_none_iff U [c] []).2 hun]
    rfl
  | some v =>
    obtain ⟨p, after⟩ := v
    have hm : matchToken ('%' :: c :: rest) =
        some (⟨'%' :: c :: '{' :: (p ++ ['}']), [c], p⟩, after) := by
      simp [matchToken, hc, hp]
    obtain ⟨hrest, _, hall⟩ := matchParameter_some hp
    have hlit : ∀ x ∈ '{' :: (p ++ ['}']), x ≠ '%' := by
      intro x hx
      rcases List.mem_cons.1 hx with rfl | hx
      · decide
      · rcases List.mem_append.1 hx with hx | hx
        · exact isParameterChar_ne_percent (hall x hx)
        · rw [List.mem_singleton.1 hx]; decide
    have hrest2 : rest = ('{' :: (p ++ ['}'])) ++ after := by
      rw [hrest]; simp
    rw [segments_cons_of_some hm]
    simp only [renderSpec, (toWordType_eq_none_iff U [c] p).2 hun]
    rw [hrest2, segments_literal_prefix after _ hlit, renderSpec_literal_prefix,
      Option.map_map]
    rfl


/-! ## Tokens that name no category -/

theorem renderSegments_append {σ : Type} (repl : σ → List Char → Except Fault (List Char × σ)) :
    ∀ (s1 s2 : List Segment) (st : σ),
      renderSegments repl st (s1 ++ s2) =
        match renderSegments repl st s1 with
        | .error e => .error e
        | .ok (o1, st1) =>
          match renderSegments repl st1 s2 with
          | .error e => .error e
          | .ok (o2, st2) => .ok (o1 ++ o2, st2)
  | [], s2, st => by
    simp only [List.nil_append, renderSegments]
    cases renderSegments repl st s2 with
    | error e => rfl
    | ok v => rfl
  | .literal c :: s1, s2, st => by
    show renderSegments repl st (.literal c :: (s1 ++ s2)) = _
    simp only [renderSegments, renderSegments_append repl s1 s2 st]
    cases renderSegments repl st s1 with
    | error e => rfl
    | ok v =>
      obtain ⟨o1, st1⟩ := v
      simp only
      cases renderSegments repl st1 s2 with
      | error e => rfl
      | ok v2 => rfl
  | .token parts :: s1, s2, st => by
    show renderSegments repl st (.token parts :: (s1 ++ s2)) = _
    simp only [renderSegments]
    cases repl st parts.token with
    | error e => rfl
    | ok w =>
      obtain ⟨word, st0⟩ := w
      simp only [renderSegments_append repl s1 s2 st0]
      cases renderSegments repl st0 s1 with
      | error e => rfl
      | ok v =>
        obtain ⟨o1, st1⟩ := v
        simp only
        cases renderSegments repl st1 s2 with
        | error e => rfl
        | ok v2 =>
          obtain ⟨o2, st2⟩ := v2
          simp only [List.append_assoc]

theorem HashUint_eq_renderSegments (U : UnicodeTables) (fuel : Nat) (h : HHash) (seed : Nat) :
    HashUint U fuel h seed =
      if h.regexp = false then .error .nilDereference
      else
        match renderSegments (tokenReplacer U fuel) (h, seed) (segments h.pattern) with
        | .error e => .error e
        | .ok (hashed, (hasher1, _)) => .ok (report hashed hasher1) := by
  unfold HashUint
  rw [ReplaceAllStringFunc_eq]

/-- C6: a token whose letter names no category is copied to the output as its raw text, in
place, and leaves the running hash alone. (1) `HashUint` is the walk of `tokenReplacer`
over the pattern's segments. (2) In that walk a token that `toWordType` rejects contributes
its own text between the output of the segments before it and the output of the segments
after it, and the segments after it start from the state the segments before it left, as
they do (3) when the token is absent. (4) At the head of a pattern: `%c` followed by `rest`
renders as `%c` followed by what `rest` renders, for instance `%q%N` as `%q` followed by the
word `%N` renders. -/
theorem HashUint_unknown_token_passthrough (U : UnicodeTables) (fuel : Nat) (h : HHash)
    (seed : Nat) :
    (HashUint U fuel h seed =
      if h.regexp = false then .error .nilDereference
      else
        match renderSegments (tokenReplacer U fuel) (h, seed) (segments h.pattern) with
        | .error e => .error e
        | .ok (hashed, (hasher1, _)) => .ok (report hashed hasher1)) ∧
    (∀ (s1 s2 : List Segment) (parts : Submatch) (st : HHash × Nat),
      FindStringSubmatch parts.token = some parts →
      toWordType U parts.wordCode parts.parameter = none →
        renderSegments (tokenReplacer U fuel) st (s1 ++ .token parts :: s2) =
          match renderSegments (tokenReplacer U fuel) st s1 with
          | .error e => .error e
          | .ok (o1, st1) =>
            match renderSegments (tokenReplacer U fuel) st1 s2 with
            | .error e => .error e
            | .ok (o2, st2) => .ok (o1 ++ (parts.token ++ o2), st2)) ∧
    (∀ (s1 s2 : List Segment) (st : HHash × Nat),
        renderSegments (tokenReplacer U fuel) st (s1 ++ s2) =
          match renderSegments (tokenReplacer U fuel) st s1 with
          | .error e => .error e
          | .ok (o1, st1) =>
            match renderSegments (tokenReplacer U fuel) st1 s2 with
            | .error e => .error e
            | .ok (o2, st2) => .ok (o1 ++ o2, st2)) ∧
    (∀ (c : Char) (rest out1 : List Char), isWordCodeChar c = true →
      stringsToLower U [c] ∉ [['a'], ['j'], ['n'], ['v']] →
        ((∃ r, HashUint U fuel { h with pattern := '%' :: c :: rest } seed = .ok r ∧
            r.hashed = out1) ↔
          ∃ out, out1 = '%' :: c :: out ∧
            ∃ r, HashUint U fuel { h with pattern := rest } seed = .ok r ∧ r.hashed = out)) := by
  refine ⟨HashUint_eq_renderSegments U fuel h seed, ?_, ?_, ?_⟩
  · intro s1 s2 parts st hm hun
    rw [renderSegments_append]
    cases renderSegments (tokenReplacer U fuel) st s1 with
    | error e => rfl
    | ok v =>
      obtain ⟨o1, st1⟩ := v
      simp only [renderSegments, tokenReplacer_matched U fuel st1 hm, hun]
      cases renderSegments (tokenReplacer U fuel) st1 s2 with
      | error e => rfl
      | ok v2 => rfl
  · intro s1 s2 st
    rw [renderSegments_append]
    cases renderSegments (tokenReplacer U fuel) st s1 with
    | error e => rfl
    | ok v =>
      obtain ⟨o1, st1⟩ := v
      dsimp only
      cases renderSegments (tokenReplacer U fuel) st1 s2 with
      | error e => rfl
      | ok v2 => rfl
  · intro c rest out1 hc hun
    rcases Bool.eq_false_or_eq_true h.regexp with hre | hre
    rotate_left
    · simp [HashUint, hre]
    · have h1 : ({ h with pattern := '%' :: c :: rest } : HHash).regexp = true := hre
      have h2 : ({ h with pattern := rest } : HHash).regexp = true := hre
      rw [HashUint_hashed_iff U fuel _ seed h1]
      simp only [HashUint_hashed_iff U fuel _ seed h2]
      have hcongr : ∀ (p q : List Char) (segs : List Segment),
          renderSpec U fuel { h with pattern := p } seed segs =
            renderSpec U fuel { h with pattern := q } seed segs := by
        intro p q segs
        exact @renderSpec_eq_of_bank U fuel { h with pattern := p } { h with pattern := q }
          (fun t => by cases t <;> rfl) rfl segs seed
      show renderSpec U fuel _ seed (segments ('%' :: c :: rest)) = some out1 ↔ _
      rw [renderSpec_unknown_head U fuel _ seed c rest hc hun]
      show _ ↔ ∃ out, out1 = '%' :: c :: out ∧ renderSpec U fuel _ seed (segments rest) = some out
      rw [hcongr rest ('%' :: c :: rest)]
      cases renderSpec U fuel { h with pattern := '%' :: c :: rest } seed (segments rest) with
      | none => simp
      | some o =>
        simp only [Option.map_some', Option.some.injEq]
        constructor
        · intro ho; exact ⟨o, ho.symm, rfl⟩
        · rintro ⟨out, rfl, ho⟩; rw [ho]


set_option maxRecDepth 100000 in
/-- Witness for `HashUint_unknown_token_passthrough`: `%q%N` renders as `%q` followed by the
noun that `%N` renders. -/
theorem HashUint_unknown_token_passthrough_witness :
    ∃ r, HashUint asciiOnly 4
        { InitPattern exampleBank [] with pattern := '%' :: 'q' :: "%N".toList } 0 = .ok r ∧
      r.hashed = "%qDog".toList :=
  ((HashUint_unknown_token_passthrough asciiOnly 4 (InitPattern exampleBank []) 0).2.2.2
      'q' "%N".toList "%qDog".toList (by decide) (by decide)).2
    ⟨"Dog".toList, by decide,
      (HashUint_hashed_iff asciiOnly 4 _ 0 (Eq.refl true) "Dog".toList).2 (by decide)⟩

/-! ## Termination when repeats are allowed -/

theorem tokenWord_allowRepeats (U : UnicodeTables) (fuel : Nat) (h : HHash) (t : WordType)
    (c : WordCase) (prev : Nat) (hrep : h.AllowRepeats = true)
    (hne : (WordsForType h t).length ≠ 0) :
    ∃ w, tokenWord U fuel h t c prev = some (w, mix prev) := by
  have hlt : mix prev % (WordsForType h t).length < (WordsForType h t).length :=
    Nat.mod_lt _ (Nat.pos_of_ne_zero hne)
  refine ⟨applyCase U c ((WordsForType h t).get ⟨_, hlt⟩), ?_⟩
  simp only [tokenWord, hashForWordType, hrep, Bool.not_true, Bool.false_eq_true, if_false,
    List.getElem?_eq_getElem hlt, List.get_eq_getElem]

theorem renderSpec_allowRepeats (U : UnicodeTables) (fuel : Nat) (h : HHash)
    (hrep : h.AllowRepeats = true) (hne : ∀ t, (WordsForType h t).length ≠ 0) :
    ∀ (segs : List Segment) (seed : Nat), ∃ out, renderSpec U fuel h seed segs = some out
  | [], _ => ⟨[], rfl⟩
  | .literal c :: segs, seed => by
    obtain ⟨out, ho⟩ := renderSpec_allowRepeats U fuel h hrep hne segs seed
    exact ⟨c :: out, by simp only [renderSpec, ho, Option.map_some']⟩
  | .token parts :: segs, seed => by
    cases ht : toWordType U parts.wordCode parts.parameter with
    | none =>
      obtain ⟨out, ho⟩ := renderSpec_allowRepeats U fuel h hrep hne segs seed
      exact ⟨parts.token ++ out, by simp only [renderSpec, ht, ho, Option.map_some']⟩
    | some tc =>
      obtain ⟨t, c⟩ := tc
      obtain ⟨w, hw⟩ := tokenWord_allowRepeats U fuel h t c seed hrep (hne t)
      obtain ⟨out, ho⟩ := renderSpec_allowRepeats U fuel h hrep hne segs (mix seed)
      exact ⟨w ++ out, by simp only [renderSpec, ht, hw, ho, Option.map_some']⟩

/-- With `AllowRepeats` true and six non-empty word lists an initialised hasher returns
from `HashUint` for every pattern and seed, whatever bound is put on the re-hash loop: the
loop is not entered. -/
theorem HashUint_allowRepeats_returns (U : UnicodeTables) (fuel : Nat) (h : HHash) (seed : Nat)
    (hre : h.regexp = true) (hrep : h.AllowRepeats = true)
    (hne : ∀ t, (WordsForType h t).length ≠ 0) :
    ∃ r, HashUint U fuel h seed = .ok r := by
  obtain ⟨out, ho⟩ := renderSpec_allowRepeats U fuel h hrep hne (segments h.pattern) seed
  obtain ⟨r, hr, _⟩ := (HashUint_hashed_iff U fuel h seed hre out).2 ho
  exact ⟨r, hr⟩

/-! ## Empty and one-word lists -/

theorem wordForToken_empty (U : UnicodeTables) (fuel : Nat) (h : HHash) (t : WordType)
    (c : WordCase) (seed : Nat) (he : WordsForType h t = []) :
    wordForToken U fuel h t c seed = .error .divideByZero := by
  unfold wordForToken hashForWordType
  cases h.AllowRepeats <;> simp [he]

set_option maxRecDepth 100000 in
/-- C7, counterexample: with an empty noun list `InitPattern` raises no error and `HashUint`
on the pattern `%N` panics with an integer divide by zero, with `AllowRepeats` false as
well as true. -/
theorem HashUint_empty_nouns_divide_by_zero :
    (InitPattern emptyNounBank "%N".toList).regexp = true ∧
      HashUint asciiOnly 4 (InitPattern emptyNounBank "%N".toList) 0
        = .error .divideByZero ∧
      HashUint asciiOnly 4 (InitPattern { emptyNounBank with AllowRepeats := true } "%N".toList) 0
        = .error .divideByZero := by
  decide

/-- C7 (amended): no `EmptyWordList` error exists. `InitPattern` succeeds whatever the word
lists are; `wordForToken` panics with an integer divide by zero whenever the list of the
token's category is empty, with `AllowRepeats` false as well as true; so the first
`HashUint` call whose walk reaches a token of such a category panics with a divide by
zero. -/
theorem HashUint_empty_list_divides_by_zero (U : UnicodeTables) (fuel : Nat) (h : HHash)
    (seed : Nat) (s1 s2 : List Segment) (parts : Submatch) (t : WordType) (c : WordCase)
    (out : List Char) (st1 : HHash × Nat)
    (hre : h.regexp = true)
    (hseg : segments h.pattern = s1 ++ .token parts :: s2)
    (ht : toWordType U parts.wordCode parts.parameter = some (t, c))
    (hempty : WordsForType h t = [])
    (hpre : renderSegments (tokenReplacer U fuel) (h, seed) s1 = .ok (out, st1)) :
    HashUint U fuel h seed = .error .divideByZero ∧
      (∀ c1 seed1, wordForToken U fuel h t c1 seed1 = .error .divideByZero) ∧
      ∀ h0 pattern, (InitPattern h0 pattern).regexp = true ∧
        ∀ t0, WordsForType (InitPattern h0 pattern) t0 = WordsForType h0 t0 := by
  refine ⟨?_, fun c1 seed1 => wordForToken_empty U fuel h t c1 seed1 hempty, ?_⟩
  · have hall := segmentsWith_matched h.pattern.length h.pattern
    have hall' : ∀ seg ∈ s1 ++ .token parts :: s2, seg.Matched := by
      rw [← hseg]; exact hall
    have hm : FindStringSubmatch parts.token = some parts :=
      hall' (.token parts) (by simp)
    have hs1 : ∀ seg ∈ s1, seg.Matched := fun seg hs => hall' seg (List.mem_append_left _ hs)
    have hst := ((renderSegments_tokenReplacer U fuel s1 hs1 h seed).2 out st1 hpre).2
    have hcfg : SameConfig st1.1 h := by rw [hst]; exact recordAll_sameConfig _ _
    have hempty1 : WordsForType st1.1 t = [] := by rw [WordsForType_congr hcfg]; exact hempty
    rw [HashUint_eq_renderSegments, hseg, renderSegments_append, hpre]
    simp only [hre, Bool.true_eq_false, if_false, renderSegments,
      tokenReplacer_matched U fuel st1 hm, ht, wordForToken_empty U fuel st1.1 t c st1.2 hempty1]
  · intro h0 pattern
    exact ⟨rfl, fun t0 => by cases t0 <;> rfl⟩

set_option maxRecDepth 100000 in
/-- Witness for `HashUint_empty_list_divides_by_zero`: the pattern `-%N` over an empty noun
list. -/
theorem HashUint_empty_list_divides_by_zero_witness :
    HashUint asciiOnly 4 (InitPattern emptyNounBank "-%N".toList) 0 = .error .divideByZero :=
  (HashUint_empty_list_divides_by_zero asciiOnly 4 (InitPattern emptyNounBank "-%N".toList) 0
    [.literal '-'] [] ⟨"%N".toList, ['N'], []⟩ .Noun .Title "-".toList
    (InitPattern emptyNounBank "-%N".toList, 0) rfl (by decide) rfl rfl (by decide)).1

theorem rehash_one (fuel : Nat) : ∀ v : Nat, rehash 1 fuel v 0 0 = .error .outOfFuel := by
  induction fuel with
  | zero => intro v; rw [rehash_zero]; rfl
  | succ fuel ih =>
    intro v
    rw [rehash_succ, if_pos rfl, Nat.mod_one]
    exact ih (mix v)

theorem hashForWordType_one_word (fuel : Nat) (h : HHash) (t : WordType) (prev : Nat)
    (hrep : h.AllowRepeats = false) (hone : (WordsForType h t).length = 1) :
    hashForWordType fuel h t prev = .error .outOfFuel := by
  rw [hashForWordType_noRepeats fuel h t prev hrep (by rw [hone]; exact Nat.one_ne_zero), hone,
    Nat.mod_one, Nat.mod_one]
  exact rehash_one fuel (mix prev)

theorem segments_N :
    segments "%N".toList = [.token ⟨"%N".toList, ['N'], []⟩] := by
  decide

/-- C8, the code at the failing input: with `AllowRepeats` false and a noun list of exactly
one word, `HashUint` on the pattern `%N` does not return for any seed, whatever number of
retries the re-hash loop is given: every index is 0, so `currentIndex == previousIndex`
holds forever. -/
theorem HashUint_one_noun_never_returns (fuel seed : Nat) :
    singleNounBank.AllowRepeats = false ∧ singleNounBank.Nouns.length = 1 ∧
      HashUint asciiOnly fuel (InitPattern singleNounBank "%N".toList) seed
        = .error .outOfFuel := by
  refine ⟨rfl, rfl, ?_⟩
  have hp : (InitPattern singleNounBank "%N".toList).pattern = "%N".toList := rfl
  have hre : (InitPattern singleNounBank "%N".toList).regexp = true := rfl
  have hm : FindStringSubmatch (⟨"%N".toList, ['N'], []⟩ : Submatch).token
      = some ⟨"%N".toList, ['N'], []⟩ := by decide
  rw [HashUint_eq_renderSegments, hp, hre, segments_N]
  simp only [Bool.true_eq_false, if_false, renderSegments,
    tokenReplacer_matched asciiOnly fuel _ hm, toWordType_N]
  simp only [wordForToken, hashForWordType_one_word fuel
    (InitPattern singleNounBank "%N".toList) .Noun seed rfl rfl]


/-! ## Casing -/

theorem isSeparator_lower (U : UnicodeTables) (c : Char)
    (hc : 'a'.toNat ≤ c.toNat ∧ c.toNat ≤ 'z'.toNat) : isSeparator U c = false := by
  have h127 : c.toNat ≤ 127 := le_trans hc.2 (by decide)
  unfold isSeparator
  rw [if_pos h127]
  by_cases hd : '0'.toNat ≤ c.toNat ∧ c.toNat ≤ '9'.toNat
  · rw [if_pos hd]
  · rw [if_neg hd, if_pos hc]

theorem titleFrom_lower (U : UnicodeTables) : ∀ (w : List Char) (prev : Char),
    ('a'.toNat ≤ prev.toNat ∧ prev.toNat ≤ 'z'.toNat) →
    (∀ ch ∈ w, 'a'.toNat ≤ ch.toNat ∧ ch.toNat ≤ 'z'.toNat) → titleFrom U prev w = w
  | [], _, _, _ => rfl
  | r :: rs, prev, hp, hw => by
    have hr := hw r (List.mem_cons_self _ _)
    simp only [titleFrom, isSeparator_lower U prev hp, Bool.false_eq_true, if_false]
    rw [titleFrom_lower U rs r hr (fun ch hch => hw ch (List.mem_cons_of_mem _ hch))]

theorem stringsToLower_lower (U : UnicodeTables) : ∀ (w : List Char),
    (∀ ch ∈ w, 'a'.toNat ≤ ch.toNat ∧ ch.toNat ≤ 'z'.toNat) → stringsToLower U w = w
  | [], _ => rfl
  | r :: rs, hw => by
    have hr := hw r (List.mem_cons_self _ _)
    have ih := stringsToLower_lower U rs (fun ch hch => hw ch (List.mem_cons_of_mem _ hch))
    unfold stringsToLower at ih ⊢
    rw [List.map_cons, unicodeToLower_lower_eq U r hr, ih]

theorem stringsTitle_lower (U : UnicodeTables) (w : List Char)
    (hw : ∀ ch ∈ w, 'a'.toNat ≤ ch.toNat ∧ ch.toNat ≤ 'z'.toNat) :
    stringsTitle U w = upperFirst U (stringsToLower U w) := by
  rw [stringsToLower_lower U w hw]
  cases w with
  | nil => rfl
  | cons r rs =>
    have hr := hw r (List.mem_cons_self _ _)
    have hsep : isSeparator U ' ' = true := rfl
    simp only [stringsTitle, titleFrom, hsep, if_true, upperFirst]
    rw [titleFrom_lower U rs r hr (fun ch hch => hw ch (List.mem_cons_of_mem _ hch))]

/-- A pattern that is one token without parameter: `HashUint` returns the word of that
token. -/
theorem HashUint_single_token (U : UnicodeTables) (fuel : Nat) (h : HHash) (seed : Nat)
    (x : Char) (t : WordType) (c : WordCase) (hre : h.regexp = true)
    (hp : h.pattern = ['%', x]) (hx : isWordCodeChar x = true)
    (ht : toWordType U [x] [] = some (t, c)) (out : List Char) :
    (∃ r, HashUint U fuel h seed = .ok r ∧ r.hashed = out) ↔
      ∃ v w, hashForWordType fuel h t seed = .ok v ∧
        (WordsForType h t)[v % (WordsForType h t).length]? = some w ∧
        out = applyCase U c w := by
  have hm : matchToken ['%', x] = some (⟨['%', x], [x], []⟩, []) := by
    simp [matchToken, hx, matchParameter]
  rw [HashUint_hashed_iff U fuel h seed hre, hp, segments_cons_of_some hm]
  have hnil : segments [] = [] := rfl
  simp only [renderSpec, ht, hnil]
  constructor
  · intro ho
    cases hw : tokenWord U fuel h t c seed with
    | none => rw [hw] at ho; simp at ho
    | some p =>
      obtain ⟨w1, v⟩ := p
      rw [hw] at ho
      simp only [Option.map_some', List.append_nil, Option.some.injEq] at ho
      obtain ⟨hv, a, ha, hw1⟩ := tokenWord_some hw
      exact ⟨v, a, hv, ha, by rw [← ho, hw1]⟩
  · rintro ⟨v, w, hv, hw, rfl⟩
    simp [tokenWord, hv, hw]

set_option maxRecDepth 100000 in
/-- C9, counterexample: with the single noun `aB` the pattern `%n` renders `ab` and the
pattern `%N` renders `AB`, which is not `ab` with its first letter upper-cased. -/
theorem HashUint_title_keeps_inner_capitals :
    (HashUint asciiOnly 4 (InitPattern mixedCaseBank "%n".toList) 0).map (fun r => r.hashed)
        = .ok "ab".toList ∧
      (HashUint asciiOnly 4 (InitPattern mixedCaseBank "%N".toList) 0).map (fun r => r.hashed)
        = .ok "AB".toList ∧
      upperFirst asciiOnly "ab".toList = "Ab".toList := by
  decide

/-- C9 (amended): for every word bank and seed and each token letter (a, j, n, v with its
list), the lower-case token `%x` and the upper-case token `%X` select the same word `w` at
the same index `v mod len` from the same sub-hash `v = hashForWordType(t, seed)`; `%x`
renders `strings.ToLower(w)` and `%X` renders `strings.Title(w)`. The output of `%X` is the
output of `%x` with its first letter upper-cased whenever `w` consists of lower-case
letters a–z. -/
theorem HashUint_case_pair (U : UnicodeTables) (fuel : Nat) (h : HHash) (seed : Nat)
    (x X : Char) (t : WordType)
    (hx : (x, X, t) ∈ [('a', 'A', WordType.Adverb), ('j', 'J', WordType.Adjective),
      ('n', 'N', WordType.Noun), ('v', 'V', WordType.Verb)])
    (hre : h.regexp = true) :
    (∀ out, (∃ r, HashUint U fuel { h with pattern := ['%', x] } seed = .ok r ∧
        r.hashed = out) ↔
      ∃ v w, hashForWordType fuel h t seed = .ok v ∧
        (WordsForType h t)[v % (WordsForType h t).length]? = some w ∧
        out = stringsToLower U w) ∧
    (∀ out, (∃ r, HashUint U fuel { h with pattern := ['%', X] } seed = .ok r ∧
        r.hashed = out) ↔
      ∃ v w, hashForWordType fuel h t seed = .ok v ∧
        (WordsForType h t)[v % (WordsForType h t).length]? = some w ∧
        out = stringsTitle U w) ∧
    ∀ w : List Char, (∀ ch ∈ w, 'a'.toNat ≤ ch.toNat ∧ ch.toNat ≤ 'z'.toNat) →
      stringsTitle U w = upperFirst U (stringsToLower U w) := by
  refine ⟨?_, ?_, stringsTitle_lower U⟩
  · intro out
    simp only [List.mem_cons, Prod.mk.injEq, List.mem_singleton, List.not_mem_nil,
      or_false] at hx
    rcases hx with ⟨rfl, rfl, rfl⟩ | ⟨rfl, rfl, rfl⟩ | ⟨rfl, rfl, rfl⟩ | ⟨rfl, rfl, rfl⟩
    · exact HashUint_single_token U fuel { h with pattern := ['%', 'a'] } seed 'a' .Adverb
        .Lower hre rfl (by decide) rfl out
    · exact HashUint_single_token U fuel { h with pattern := ['%', 'j'] } seed 'j' .Adjective
        .Lower hre rfl (by decide) rfl out
    · exact HashUint_single_token U fuel { h with pattern := ['%', 'n'] } seed 'n' .Noun
        .Lower hre rfl (by decide) rfl out
    · exact HashUint_single_token U fuel { h with pattern := ['%', 'v'] } seed 'v' .Verb
        .Lower hre rfl (by decide) rfl out
  · intro out
    simp only [List.mem_cons, Prod.mk.injEq, List.mem_singleton, List.not_mem_nil,
      or_false] at hx
    rcases hx with ⟨rfl, rfl, rfl⟩ | ⟨rfl, rfl, rfl⟩ | ⟨rfl, rfl, rfl⟩ | ⟨rfl, rfl, rfl⟩
    · exact HashUint_single_token U fuel { h with pattern := ['%', 'A'] } seed 'A' .Adverb
        .Title hre rfl (by decide) rfl out
    · exact HashUint_single_token U fuel { h with pattern := ['%', 'J'] } seed 'J' .Adjective
        .Title hre rfl (by decide) rfl out
    · exact HashUint_single_token U fuel { h with pattern := ['%', 'N'] } seed 'N' .Noun
        .Title hre rfl (by decide) rfl out
    · exact HashUint_single_token U fuel { h with pattern := ['%', 'V'] } seed 'V' .Verb
        .Title hre rfl (by decide) rfl out

set_option maxRecDepth 100000 in
/-- Witness for `HashUint_case_pair`: the noun pair `%n`, `%N` over the example bank; the
word selected from seed 0 is `dog`, so `%N` renders `Dog`. -/
theorem HashUint_case_pair_witness :
    ∃ r, HashUint asciiOnly 4 { InitPattern exampleBank [] with pattern := ['%', 'N'] } 0
        = .ok r ∧ r.hashed = "Dog".toList :=
  ((HashUint_case_pair asciiOnly 4 (InitPattern exampleBank []) 0 'n' 'N' .Noun (by decide)
      rfl).2.1 "Dog".toList).2
    ⟨mix 0, "dog".toList, by decide, by decide, by decide⟩


/-! ## The collision report -/

theorem foldl_mul_mod (M : Nat) : ∀ (l : List Nat) (a : Nat), a < M →
    l.foldl (fun total numChoices => (total * numChoices) % M) a = (a * l.prod) % M
  | [], a, ha => by
    simp only [List.foldl_nil, List.prod_nil, Nat.mul_one]
    exact (Nat.mod_eq_of_lt ha).symm
  | n :: l, a, ha => by
    have hM : 0 < M := Nat.lt_of_le_of_lt (Nat.zero_le a) ha
    rw [List.foldl_cons, foldl_mul_mod M l _ (Nat.mod_lt _ hM), List.prod_cons,
      Nat.mod_mul_mod, Nat.mul_assoc]

theorem totalNumChoices_eq (sizes : List Nat) : totalNumChoices sizes = sizes.prod % 2 ^ 64 := by
  unfold totalNumChoices
  rw [foldl_mul_mod (2 ^ 64) sizes 1 (by decide), Nat.one_mul]

theorem recordAll_numChoices : ∀ (sizes : List Nat) (h : HHash) (l : List Nat),
    h.CalculateCollisionRate = true → h.numChoicesPerWord = some l →
    (recordAll h sizes).CalculateCollisionRate = true ∧
      (recordAll h sizes).numChoicesPerWord = some (l ++ sizes)
  | [], h, l, hc, hl => by
    simp only [recordAll, List.foldl_nil, List.append_nil]
    exact ⟨hc, hl⟩
  | n :: sizes, h, l, hc, hl => by
    have hstep : recordChoices h n = { h with numChoicesPerWord := some (l ++ [n]) } := by
      simp only [recordChoices, hc, if_true, hl]
    rw [recordAll_cons, hstep]
    have := recordAll_numChoices sizes { h with numChoicesPerWord := some (l ++ [n]) }
      (l ++ [n]) hc rfl
    rw [List.append_assoc] at this
    exact this

/-- With `CalculateCollisionRate` set and a non-nil accumulator holding `l`, a call of
`HashUint` that returns reports the product, in `uint` arithmetic, of `l` and the sizes
touched in this pass, and leaves the accumulator nil. -/
theorem HashUint_reported {U : UnicodeTables} {fuel : Nat} {h : HHash} {seed : Nat}
    {r : HashResult} {l : List Nat} (hr : HashUint U fuel h seed = .ok r)
    (hc : h.CalculateCollisionRate = true) (hl : h.numChoicesPerWord = some l) :
    r.reported = some ((l ++ touchedSizes U h (segments h.pattern)).prod % 2 ^ 64) ∧
      r.hasher.numChoicesPerWord = none := by
  obtain ⟨_, out, _, rfl⟩ := (HashUint_ok_iff U fuel h seed r).1 hr
  obtain ⟨h1, h2⟩ := recordAll_numChoices (touchedSizes U h (segments h.pattern)) h l hc hl
  simp only [report, h1, if_true, h2, totalNumChoices_eq, and_self]

set_option maxRecDepth 1000000 in
/-- C10, the code at the failing input: with `CalculateCollisionRate` set, two nouns and a
pattern of sixty-four `%n` tokens, the first `HashUint` call after `InitPattern` touches
sixty-four lists of length 2, whose product is `2 ^ 64`, and reports a total of 0: the
`uint` multiplication in `HashUint` wraps around. -/
theorem HashUint_reports_wrapped_total :
    (touchedSizes asciiOnly (InitPattern reportingBank sixtyFourNouns)
        (segments sixtyFourNouns)).prod = 2 ^ 64 ∧
      (HashUint asciiOnly 64 (InitPattern reportingBank sixtyFourNouns) 0).map
        (fun r => r.reported) = .ok (some 0) := by
  decide!


/-! ## Recognised tokens against matches of the regular expression -/

theorem isWordCodeChar_ascii {c : Char} (h : isWordCodeChar c = true) : c.toNat ≤ 127 := by
  simp only [isWordCodeChar, Char.isAlpha, Char.isUpper, Char.isLower, Bool.or_eq_true,
    Bool.and_eq_true, decide_eq_true_eq, beq_iff_eq] at h
  have h1 : ∀ (a b : UInt32), a ≤ b → a.toNat ≤ b.toNat := fun a b hab => hab
  rcases h with (⟨_, h⟩ | ⟨_, h⟩) | h
  · exact le_trans (h1 _ _ h) (by decide)
  · exact le_trans (h1 _ _ h) (by decide)
  · rw [h]; decide

set_option maxRecDepth 100000 in
theorem unknown_letter (U : UnicodeTables) {c : Char} (hc : isWordCodeChar c = true)
    (hn : c ∉ ['a', 'j', 'n', 'v', 'A', 'J', 'N', 'V']) :
    stringsToLower U [c] ∉ [['a'], ['j'], ['n'], ['v']] := by
  have h127 := isWordCodeChar_ascii hc
  have key := ascii_forall
    (fun c => c ∉ ['a', 'j', 'n', 'v', 'A', 'J', 'N', 'V'] →
      unicodeToLower asciiOnly c ∉ ['a', 'j', 'n', 'v'])
    (by decide) c h127 hn
  simp only [stringsToLower, List.map_cons, List.map_nil, unicodeToLower_ascii U c h127]
  simp only [List.mem_cons, List.mem_singleton, List.not_mem_nil, or_false, not_or,
    List.cons.injEq, and_true] at key ⊢
  exact key

theorem recognised_isWordCodeChar {c : Char}
    (h : c ∈ ['a', 'j', 'n', 'v', 'A', 'J', 'N', 'V']) : isWordCodeChar c = true := by
  simp only [List.mem_cons, List.mem_singleton, List.not_mem_nil, or_false] at h
  rcases h with rfl | rfl | rfl | rfl | rfl | rfl | rfl | rfl <;> decide

theorem matchRecognised_of_mem {c : Char} (rest : List Char)
    (h : c ∈ ['a', 'j', 'n', 'v', 'A', 'J', 'N', 'V']) :
    matchRecognised ('%' :: c :: rest) = matchToken ('%' :: c :: rest) := by
  simp only [matchRecognised, matchToken, h, recognised_isWordCodeChar h, and_self, if_true]

theorem matchRecognised_of_not_mem (a : Char) {c : Char} (rest : List Char)
    (h : c ∉ ['a', 'j', 'n', 'v', 'A', 'J', 'N', 'V']) :
    matchRecognised (a :: c :: rest) = none := by
  simp only [matchRecognised, h, and_false, if_false]

theorem matchRecognised_of_ne_percent {x : Char} (l : List Char) (hx : x ≠ '%') :
    matchRecognised (x :: l) = none := by
  cases l with
  | nil => rfl
  | cons c tl => simp [matchRecognised, hx]

theorem matchRecognised_length {s : List Char} {parts : Submatch} {rest : List Char}
    (h : matchRecognised s = some (parts, rest)) : rest.length + 2 ≤ s.length := by
  match s, h with
  | a :: c :: tl, h =>
    by_cases hc : c ∈ ['a', 'j', 'n', 'v', 'A', 'J', 'N', 'V']
    · by_cases ha : a = '%'
      · rw [ha, matchRecognised_of_mem tl hc] at h
        rw [ha]
        exact matchToken_length h
      · rw [matchRecognised_of_ne_percent _ ha] at h
        simp at h
    · rw [matchRecognised_of_not_mem a tl hc] at h
      simp at h
  | [], h => simp [matchRecognised] at h
  | [_], h => simp [matchRecognised] at h

theorem segmentsWith_fuel_of (m : List Char → Option (Submatch × List Char))
    (hm : ∀ s parts rest, m s = some (parts, rest) → rest.length + 2 ≤ s.length) :
    ∀ (n k : Nat) (src : List Char), src.length ≤ n → src.length ≤ k →
      segmentsWith m n src = segmentsWith m k src
  | 0, k, src, hn, _ => by
    have hs : src = [] := List.length_eq_zero.1 (Nat.le_zero.1 hn)
    subst hs
    cases k <;> rfl
  | n + 1, k, [], _, _ => by
    cases k <;> rfl
  | n + 1, 0, c :: cs, _, hk => by
    simp at hk
  | n + 1, k + 1, c :: cs, hn, hk => by
    simp only [segmentsWith]
    have hn1 : cs.length ≤ n := Nat.le_of_succ_le_succ hn
    have hk1 : cs.length ≤ k := Nat.le_of_succ_le_succ hk
    cases hmt : m (c :: cs) with
    | none =>
      simp only
      rw [segmentsWith_fuel_of m hm n k cs hn1 hk1]
    | some v =>
      obtain ⟨parts, rest⟩ := v
      simp only
      have hl := hm _ _ _ hmt
      simp only [List.length_cons] at hl
      rw [segmentsWith_fuel_of m hm n k rest (by omega) (by omega)]

theorem recognisedSegments_cons_of_none {x : Char} {l : List Char}
    (h : matchRecognised (x :: l) = none) :
    recognisedSegments (x :: l) = .literal x :: recognisedSegments l := by
  simp only [recognisedSegments, List.length_cons, segmentsWith, h]

theorem recognisedSegments_cons_of_some {x : Char} {l : List Char} {parts : Submatch}
    {rest : List Char} (h : matchRecognised (x :: l) = some (parts, rest)) :
    recognisedSegments (x :: l) = .token parts :: recognisedSegments rest := by
  have hl := matchRecognised_length h
  simp only [List.length_cons] at hl
  simp only [recognisedSegments, List.length_cons, segmentsWith, h]
  rw [segmentsWith_fuel_of matchRecognised (fun _ _ _ => matchRecognised_length)
    l.length rest.length rest (by omega) (le_refl _)]

theorem noDoublePercent_suffix {l1 l2 : List Char} (h : NoDoublePercent (l1 ++ l2)) :
    NoDoublePercent l2 :=
  fun hin => h (hin.trans (List.suffix_append l1 l2).isInfix)

theorem noDoublePercent_tail {a : Char} {l : List Char} (h : NoDoublePercent (a :: l)) :
    NoDoublePercent l :=
  @noDoublePercent_suffix [a] l h

theorem noDoublePercent_second {c : Char} {rest : List Char}
    (h : NoDoublePercent ('%' :: c :: rest)) : c ≠ '%' := by
  intro hc
  apply h
  rw [hc]
  exact (List.prefix_append ['%', '%'] rest).isInfix

theorem renderSpec_cons_congr (U : UnicodeTables) (fuel : Nat) (h : HHash) (seg : Segment)
    {A B : List Segment} (hAB : ∀ seed, renderSpec U fuel h seed A = renderSpec U fuel h seed B)
    (seed : Nat) :
    renderSpec U fuel h seed (seg :: A) = renderSpec U fuel h seed (seg :: B) := by
  cases seg with
  | literal c => simp only [renderSpec, hAB]
  | token parts => simp only [renderSpec, hAB]

/-- On a pattern without `%%`, cutting out only the recognised tokens renders the same as
cutting at the matches of `patternRegex`. -/
theorem renderSpec_recognised (U : UnicodeTables) (fuel : Nat) (h : HHash) :
    ∀ (n : Nat) (src : List Char), src.length ≤ n → NoDoublePercent src → ∀ seed,
      renderSpec U fuel h seed (recognisedSegments src) = renderSpec U fuel h seed (segments src)
  | _, [], _, _, _ => rfl
  | 0, _ :: _, hn, _, _ => by simp at hn
  | n + 1, a :: l, hn, hnd, seed => by
    have hl : l.length ≤ n := Nat.le_of_succ_le_succ hn
    by_cases ha : a = '%'
    · subst ha
      cases l with
      | nil => rfl
      | cons c rest =>
        have hc : c ≠ '%' := noDoublePercent_second hnd
        have hrest : rest.length ≤ n := Nat.le_of_succ_le hl
        have hndrest : NoDoublePercent rest :=
          @noDoublePercent_suffix ['%', c] rest hnd
        by_cases hrec : c ∈ ['a', 'j', 'n', 'v', 'A', 'J', 'N', 'V']
        · have hmr := matchRecognised_of_mem rest hrec
          cases hmt : matchToken ('%' :: c :: rest) with
          | none =>
            have hwc := recognised_isWordCodeChar hrec
            cases hp : matchParameter rest with
            | none => simp [matchToken, hwc, hp] at hmt
            | some v => simp [matchToken, hwc, hp] at hmt
          | some v =>
            obtain ⟨parts, after⟩ := v
            rw [hmt] at hmr
            rw [recognisedSegments_cons_of_some hmr, segments_cons_of_some hmt]
            have hlen := matchToken_length hmt
            simp only [List.length_cons] at hlen
            have hsplit := (matchToken_some hmt).1
            have hndafter : NoDoublePercent after := by
              rw [hsplit] at hnd
              exact noDoublePercent_suffix hnd
            exact renderSpec_cons_congr U fuel h _
              (fun sd => renderSpec_recognised U fuel h n after (by omega) hndafter sd) seed
        · rw [recognisedSegments_cons_of_none (matchRecognised_of_not_mem '%' rest hrec),
            recognisedSegments_cons_of_none (matchRecognised_of_ne_percent rest hc)]
          have ih := fun sd => renderSpec_recognised U fuel h n rest hrest hndrest sd
          by_cases hwc : isWordCodeChar c = true
          · rw [renderSpec_unknown_head U fuel h seed c rest hwc (unknown_letter U hwc hrec)]
            simp only [renderSpec, ih, Option.map_map]
            rfl
          · have hmt : matchToken ('%' :: c :: rest) = none := by
              simp [matchToken, hwc]
            rw [segments_cons_of_none hmt,
              segments_cons_of_none (matchToken_of_ne_percent rest hc)]
            simp only [renderSpec, ih]
    · rw [recognisedSegments_cons_of_none (matchRecognised_of_ne_percent l ha),
        segments_cons_of_none (matchToken_of_ne_percent l ha)]
      exact renderSpec_cons_congr U fuel h _
        (fun sd => renderSpec_recognised U fuel h n l hl (noDoublePercent_tail hnd) sd) seed


/-! ## Rendering as a walk over the pattern's tokens -/

set_option maxRecDepth 100000 in
/-- C1, counterexample: on the pattern `%%N` the code returns `%%N` (the regular expression
matches `%%` as one token and leaves `N` as text), whereas replacing every `%` followed by
one of a/j/n/v, taken left to right, would give `%` followed by a noun. -/
theorem HashUint_percent_percent_N :
    (HashUint asciiOnly 4 (InitPattern exampleBank "%%N".toList) 0).map (fun r => r.hashed)
        = .ok "%%N".toList ∧
      renderSpec asciiOnly 4 (InitPattern exampleBank "%%N".toList) 0
        (recognisedSegments "%%N".toList) = some "%Dog".toList := by
  decide

/-- C1 (amended): for every initialised hasher, seed and word bank, `HashUint` returns the
string `out` exactly when the walk over the pattern's segments does: the segments are the
matches of `patternRegex` from left to right (a `%` followed by a letter or `%`, with an
optional `{alphanumerics}` parameter) and the text between them; a match whose letter is
one of a/j/n/v is replaced by the word `case(WordsForType(t)[h_i mod len])` with
`h_i = hashForWordType(t, h_(i-1))` and `h_0 = seed`; every other match and all other text
is copied unchanged, in source order. On a pattern without `%%` this is the same as
replacing each `%` followed by one of a/j/n/v, taken left to right, and copying all other
text. -/
theorem HashUint_renders_segments (U : UnicodeTables) (fuel : Nat) (h : HHash) (seed : Nat)
    (out : List Char) (hre : h.regexp = true) :
    ((∃ r, HashUint U fuel h seed = .ok r ∧ r.hashed = out) ↔
      renderSpec U fuel h seed (segments h.pattern) = some out) ∧
    (NoDoublePercent h.pattern →
      ((∃ r, HashUint U fuel h seed = .ok r ∧ r.hashed = out) ↔
        renderSpec U fuel h seed (recognisedSegments h.pattern) = some out)) := by
  refine ⟨HashUint_hashed_iff U fuel h seed hre out, fun hnd => ?_⟩
  rw [renderSpec_recognised U fuel h h.pattern.length h.pattern (le_refl _) hnd seed]
  exact HashUint_hashed_iff U fuel h seed hre out

set_option maxRecDepth 100000 in
/-- Witness for `HashUint_renders_segments`: an initialised hasher on which the walk over
the segments has a result, so `HashUint` returns it. -/
theorem HashUint_renders_segments_witness :
    ∃ r, HashUint asciiOnly 4 (InitPattern exampleBank "%J-%q%v{G}_%N".toList) 7 = .ok r ∧
      r.hashed = "Quick-%qeating_Fox".toList :=
  ((HashUint_renders_segments asciiOnly 4 (InitPattern exampleBank "%J-%q%v{G}_%N".toList) 7
    "Quick-%qeating_Fox".toList rfl).1).2 (by decide)


/-! ## What `HashUint` changes -/

theorem recordAll_of_flag_false : ∀ (sizes : List Nat) (h : HHash),
    h.CalculateCollisionRate = false → recordAll h sizes = h
  | [], _, _ => rfl
  | n :: sizes, h, hc => by
    have hstep : recordChoices h n = h := by
      simp only [recordChoices, hc, Bool.false_eq_true, if_false]
    rw [recordAll_cons, hstep]
    exact recordAll_of_flag_false sizes h hc

theorem recordAll_of_nil : ∀ (sizes : List Nat) (h : HHash),
    h.numChoicesPerWord = none → recordAll h sizes = h
  | [], _, _ => rfl
  | n :: sizes, h, hn => by
    have hstep : recordChoices h n = h := by
      unfold recordChoices
      split
      · rw [hn]
      · rfl
    rw [recordAll_cons, hstep]
    exact recordAll_of_nil sizes h hn

theorem recordAll_of_armed (sizes : List Nat) (h : HHash) (l : List Nat)
    (hc : h.CalculateCollisionRate = true) (hl : h.numChoicesPerWord = some l) :
    recordAll h sizes = { h with numChoicesPerWord := some (l ++ sizes) } := by
  induction sizes generalizing h l with
  | nil =>
    simp only [recordAll, List.foldl_nil, List.append_nil]
    rw [← hl]
  | cons n sizes ih =>
    have hstep : recordChoices h n = { h with numChoicesPerWord := some (l ++ [n]) } := by
      simp only [recordChoices, hc, if_true, hl]
    rw [recordAll_cons, hstep]
    have := ih { h with numChoicesPerWord := some (l ++ [n]) } (l ++ [n]) hc rfl
    rw [this, List.append_assoc]
    rfl

/-- The hasher and the report that a returning call of `HashUint` leaves, by cases on the
flag and the accumulator. -/
theorem HashUint_frame {U : UnicodeTables} {fuel : Nat} {h : HHash} {seed : Nat}
    {r : HashResult} (hr : HashUint U fuel h seed = .ok r) :
    (h.CalculateCollisionRate = false → r.hasher = h ∧ r.reported = none) ∧
    (h.numChoicesPerWord = none → r.hasher = h ∧ r.reported = none) ∧
    (∀ l, h.CalculateCollisionRate = true → h.numChoicesPerWord = some l →
      r.hasher = { h with numChoicesPerWord := none } ∧
      r.reported = some (totalNumChoices (l ++ touchedSizes U h (segments h.pattern)))) := by
  obtain ⟨_, out, _, rfl⟩ := (HashUint_ok_iff U fuel h seed r).1 hr
  refine ⟨?_, ?_, ?_⟩
  · intro hc
    rw [recordAll_of_flag_false _ h hc]
    simp only [report, hc, Bool.false_eq_true, if_false, and_self]
  · intro hn
    rw [recordAll_of_nil _ h hn]
    unfold report
    split
    · rw [hn]; exact ⟨rfl, rfl⟩
    · exact ⟨rfl, rfl⟩
  · intro l hc hl
    rw [recordAll_of_armed _ h l hc hl]
    simp only [report, hc, if_true, and_self]


theorem HashUint_reported_some {U : UnicodeTables} {fuel : Nat} {h : HHash} {seed : Nat}
    {r : HashResult} (hr : HashUint U fuel h seed = .ok r) (hrep : r.reported ≠ none) :
    h.CalculateCollisionRate = true ∧ h.numChoicesPerWord ≠ none ∧
      r.hasher = { h with numChoicesPerWord := none } := by
  obtain ⟨h1, h2, h3⟩ := HashUint_frame hr
  rcases Bool.eq_false_or_eq_true h.CalculateCollisionRate with hc | hc
  · by_cases hn : h.numChoicesPerWord = none
    · exact absurd (h2 hn).2 hrep
    · obtain ⟨l, hl⟩ := Option.ne_none_iff_exists'.1 hn
      exact ⟨hc, hn, (h3 l hc hl).1⟩
  · exact absurd (h1 hc).2 hrep

/-- C17: a call of `HashUint` that returns leaves the pattern, the compiled expression, the
six word lists, `AllowRepeats` and `CalculateCollisionRate` as they were, for every seed;
`numChoicesPerWord` changes only when `CalculateCollisionRate` is set and
`numChoicesPerWord` is non-nil, and is nil afterwards in that case; with
`CalculateCollisionRate` false the whole hasher is unchanged. -/
theorem HashUint_changes_only_accumulator (U : UnicodeTables) (fuel : Nat) (h : HHash)
    (seed : Nat) (r : HashResult) (hr : HashUint U fuel h seed = .ok r) :
    r.hasher.pattern = h.pattern ∧ r.hasher.regexp = h.regexp ∧
    r.hasher.Adjectives = h.Adjectives ∧ r.hasher.Adverbs = h.Adverbs ∧
    r.hasher.Nouns = h.Nouns ∧ r.hasher.Verbs = h.Verbs ∧
    r.hasher.VerbsPast = h.VerbsPast ∧ r.hasher.VerbsGerund = h.VerbsGerund ∧
    r.hasher.AllowRepeats = h.AllowRepeats ∧
    r.hasher.CalculateCollisionRate = h.CalculateCollisionRate ∧
    (r.hasher.numChoicesPerWord ≠ h.numChoicesPerWord →
      h.CalculateCollisionRate = true ∧ h.numChoicesPerWord ≠ none) ∧
    (h.CalculateCollisionRate = true → h.numChoicesPerWord ≠ none →
      r.hasher.numChoicesPerWord = none) ∧
    (h.CalculateCollisionRate = false → r.hasher = h) := by
  obtain ⟨h1, h2, h3⟩ := HashUint_frame hr
  have key : r.hasher = h ∨ (h.CalculateCollisionRate = true ∧ h.numChoicesPerWord ≠ none ∧
      r.hasher = { h with numChoicesPerWord := none }) := by
    rcases Bool.eq_false_or_eq_true h.CalculateCollisionRate with hc | hc
    · by_cases hn : h.numChoicesPerWord = none
      · exact Or.inl (h2 hn).1
      · obtain ⟨l, hl⟩ := Option.ne_none_iff_exists'.1 hn
        exact Or.inr ⟨hc, hn, (h3 l hc hl).1⟩
    · exact Or.inl (h1 hc).1
  refine ⟨?_, ?_, ?_, ?_, ?_, ?_, ?_, ?_, ?_, ?_, ?_, ?_, fun hc => (h1 hc).1⟩
  iterate 10 (rcases key with hk | ⟨_, _, hk⟩ <;> rw [hk])
  · intro hne
    rcases key with hk | ⟨hc, hn, _⟩
    · rw [hk] at hne; exact absurd rfl hne
    · exact ⟨hc, hn⟩
  · intro hc hn
    obtain ⟨l, hl⟩ := Option.ne_none_iff_exists'.1 hn
    rw [(h3 l hc hl).1]

set_option maxRecDepth 100000 in
/-- Witness for `HashUint_changes_only_accumulator`: the reporting example hasher returns
from a call, after which its accumulator is nil and its pattern is the same. -/
theorem HashUint_changes_only_accumulator_witness :
    ({ exampleReporting with numChoicesPerWord := none } : HHash).pattern
        = exampleReporting.pattern ∧
      (exampleReporting.CalculateCollisionRate = true → exampleReporting.numChoicesPerWord ≠ none →
        ({ exampleReporting with numChoicesPerWord := none } : HHash).numChoicesPerWord = none) :=
  ⟨(HashUint_changes_only_accumulator asciiOnly 4 exampleReporting 3
      ⟨"QuicklyEatingFox".toList, { exampleReporting with numChoicesPerWord := none }, some 8⟩
      (by decide)).1,
    (HashUint_changes_only_accumulator asciiOnly 4 exampleReporting 3
      ⟨"QuicklyEatingFox".toList, { exampleReporting with numChoicesPerWord := none }, some 8⟩
      (by decide)).2.2.2.2.2.2.2.2.2.2.2.1⟩


/-! ## Reporting the collision rate over a sequence of calls -/

theorem HashUint_flag_unchanged {U : UnicodeTables} {fuel : Nat} {h : HHash}
    {seed : Nat} {r : HashResult} (hr : HashUint U fuel h seed = .ok r) :
    r.hasher.CalculateCollisionRate = h.CalculateCollisionRate := by
  obtain ⟨h1, h2, h3⟩ := HashUint_frame hr
  rcases Bool.eq_false_or_eq_true h.CalculateCollisionRate with hc | hc
  · by_cases hn : h.numChoicesPerWord = none
    · rw [(h2 hn).1]
    · obtain ⟨l, hl⟩ := Option.ne_none_iff_exists'.1 hn
      rw [(h3 l hc hl).1]
  · rw [(h1 hc).1]

theorem runCalls_hashes_of_nil (U : UnicodeTables) (fuel : Nat) :
    ∀ (seeds : List Nat) (h h1 : HHash) (reports : List (Option Nat)),
      h.numChoicesPerWord = none →
      runCalls U fuel h (seeds.map Call.HashUint) = .ok (h1, reports) →
      h1 = h ∧ ∀ x ∈ reports, x = none
  | [], h, h1, reports, _, hrun => by
    simp only [List.map_nil, runCalls, Except.ok.injEq, Prod.mk.injEq] at hrun
    obtain ⟨rfl, rfl⟩ := hrun
    exact ⟨rfl, fun x hx => absurd hx (List.not_mem_nil x)⟩
  | seed :: seeds, h, h1, reports, hn, hrun => by
    simp only [List.map_cons, runCalls] at hrun
    cases hr : HashUint U fuel h seed with
    | error e => rw [hr] at hrun; simp at hrun
    | ok r =>
      rw [hr] at hrun
      simp only at hrun
      obtain ⟨hh, hrep⟩ := (HashUint_frame hr).2.1 hn
      cases hrest : runCalls U fuel r.hasher (seeds.map Call.HashUint) with
      | error e => rw [hrest] at hrun; simp at hrun
      | ok v =>
        obtain ⟨h2, reps⟩ := v
        rw [hrest] at hrun
        simp only [Except.ok.injEq, Prod.mk.injEq] at hrun
        obtain ⟨rfl, rfl⟩ := hrun
        rw [hh] at hrest
        obtain ⟨ih1, ih2⟩ := runCalls_hashes_of_nil U fuel seeds h h2 reps hn hrest
        refine ⟨ih1, ?_⟩
        intro x hx
        rcases List.mem_cons.1 hx with rfl | hx
        · exact hrep
        · exact ih2 x hx

theorem runCalls_hashes_once (U : UnicodeTables) (fuel : Nat) :
    ∀ (seeds : List Nat) (h h1 : HHash) (reports : List (Option Nat)),
      runCalls U fuel h (seeds.map Call.HashUint) = .ok (h1, reports) →
      (reports.filter Option.isSome).length ≤ 1
  | [], h, h1, reports, hrun => by
    simp only [List.map_nil, runCalls, Except.ok.injEq, Prod.mk.injEq] at hrun
    obtain ⟨_, rfl⟩ := hrun
    exact Nat.zero_le 1
  | seed :: seeds, h, h1, reports, hrun => by
    simp only [List.map_cons, runCalls] at hrun
    cases hr : HashUint U fuel h seed with
    | error e => rw [hr] at hrun; simp at hrun
    | ok r =>
      rw [hr] at hrun
      simp only at hrun
      cases hrest : runCalls U fuel r.hasher (seeds.map Call.HashUint) with
      | error e => rw [hrest] at hrun; simp at hrun
      | ok v =>
        obtain ⟨h2, reps⟩ := v
        rw [hrest] at hrun
        simp only [Except.ok.injEq, Prod.mk.injEq] at hrun
        obtain ⟨rfl, rfl⟩ := hrun
        by_cases hrep : r.reported = none
        · rw [hrep]
          simp only [List.filter_cons, Option.isSome_none, Bool.false_eq_true, if_false]
          exact runCalls_hashes_once U fuel seeds r.hasher h2 reps hrest
        · obtain ⟨_, _, hh⟩ := HashUint_reported_some hr hrep
          have hnil : r.hasher.numChoicesPerWord = none := by rw [hh]
          obtain ⟨_, hall⟩ := runCalls_hashes_of_nil U fuel seeds r.hasher h2 reps hnil hrest
          have hempty : reps.filter Option.isSome = [] := by
            rw [List.filter_eq_nil_iff]
            intro x hx
            rw [hall x hx]
            simp
          rw [List.filter_cons, hempty]
          split <;> simp

set_option maxRecDepth 100000 in
/-- C11, counterexample: on one instance with `CalculateCollisionRate` set, the calls
`InitPattern`, `HashUint`, `InitPattern`, `HashUint` report the collision rate twice:
the second `InitPattern` makes `numChoicesPerWord` an empty non-nil list again. -/
theorem runCalls_reports_twice :
    reportingBank.CalculateCollisionRate = true ∧
      (runCalls asciiOnly 4 reportingBank
        [.InitPattern "%A%V{G}%N".toList, .HashUint 3,
         .InitPattern "%A%V{G}%N".toList, .HashUint 3]).map (fun v => v.2)
        = .ok [some 8, some 8] := by
  decide

/-- C11 (amended): the collision rate is reported at most once per `InitPattern`. In any
run of `HashUint` calls on one instance with no `InitPattern` between them at most one call
reports; a call that reports leaves `numChoicesPerWord` nil; from a hasher whose
`numChoicesPerWord` is nil no later `HashUint` call records a size or reports, the hasher
staying as it is; and every `InitPattern` makes `numChoicesPerWord` an empty non-nil list
again, so that the next `HashUint` call records and reports anew. -/
theorem runCalls_reports_once_per_InitPattern (U : UnicodeTables) (fuel : Nat) (h h1 : HHash)
    (seeds : List Nat) (reports : List (Option Nat))
    (hrun : runCalls U fuel h (seeds.map Call.HashUint) = .ok (h1, reports)) :
    (reports.filter Option.isSome).length ≤ 1 ∧
    (h.numChoicesPerWord = none → h1 = h ∧ ∀ x ∈ reports, x = none) ∧
    (∀ seed r, HashUint U fuel h seed = .ok r → r.reported ≠ none →
      r.hasher.numChoicesPerWord = none) ∧
    (∀ pattern, (InitPattern h1 pattern).numChoicesPerWord = some [] ∧
      (InitPattern h1 pattern).CalculateCollisionRate = h.CalculateCollisionRate) ∧
    (∀ pattern seed r, h.CalculateCollisionRate = true →
      HashUint U fuel (InitPattern h1 pattern) seed = .ok r → r.reported ≠ none) := by
  have hflag : h1.CalculateCollisionRate = h.CalculateCollisionRate := by
    induction seeds generalizing h reports with
    | nil =>
      simp only [List.map_nil, runCalls, Except.ok.injEq, Prod.mk.injEq] at hrun
      rw [hrun.1]
    | cons seed seeds ih =>
      simp only [List.map_cons, runCalls] at hrun
      cases hr : HashUint U fuel h seed with
      | error e => rw [hr] at hrun; simp at hrun
      | ok r =>
        rw [hr] at hrun
        simp only at hrun
        cases hrest : runCalls U fuel r.hasher (seeds.map Call.HashUint) with
        | error e => rw [hrest] at hrun; simp at hrun
        | ok v =>
          obtain ⟨h2, reps⟩ := v
          rw [hrest] at hrun
          simp only [Except.ok.injEq, Prod.mk.injEq] at hrun
          obtain ⟨rfl, _⟩ := hrun
          rw [ih r.hasher reps hrest]
          exact (HashUint_flag_unchanged hr)
  refine ⟨runCalls_hashes_once U fuel seeds h h1 reports hrun,
    fun hn => runCalls_hashes_of_nil U fuel seeds h h1 reports hn hrun, ?_,
    fun pattern => ⟨rfl, hflag⟩, ?_⟩
  · intro seed r hr hrep
    rw [(HashUint_reported_some hr hrep).2.2]
  · intro pattern seed r hc hr
    have hc1 : (InitPattern h1 pattern).CalculateCollisionRate = true := hflag.trans hc
    rw [((HashUint_frame hr).2.2 [] hc1 rfl).2]
    exact Option.some_ne_none _

set_option maxRecDepth 1000000 in
/-- Witness for `runCalls_reports_once_per_InitPattern`: three `HashUint` calls after one
`InitPattern`; only the first reports. -/
theorem runCalls_reports_once_per_InitPattern_witness :
    ([some 8, none, none].filter Option.isSome).length ≤ 1 :=
  (runCalls_reports_once_per_InitPattern asciiOnly 4 exampleReporting
    { exampleReporting with numChoicesPerWord := none } [3, 4, 5] [some 8, none, none]
    (by decide!)).1


/-! ## The mixing step -/

theorem avalanche_lt (h : Nat) : xxhash.avalanche h < 2 ^ 64 := by
  unfold xxhash.avalanche
  simp only
  apply Nat.xor_lt_two_pow
  · exact Nat.mod_lt _ (by decide)
  · rw [Nat.shiftRight_eq_div_pow]
    exact lt_of_le_of_lt (Nat.div_le_self _ _) (Nat.mod_lt _ (by decide))

theorem Sum64_lt (b : List Nat) : xxhash.Sum64 b < 2 ^ 64 := by
  unfold xxhash.Sum64
  exact avalanche_lt _

theorem mix_lt (x : Nat) : mix x < 2 ^ 64 := Sum64_lt _

theorem PutUint64_length (v : Nat) : (PutUint64 v).length = 8 := by
  simp [PutUint64]

theorem leUint_PutUint64 (v : Nat) : xxhash.leUint (PutUint64 v) = v % 2 ^ 64 := by
  have hr : List.range 8 = [0, 1, 2, 3, 4, 5, 6, 7] := by decide
  simp only [PutUint64, hr, List.map_cons, List.map_nil, xxhash.leUint, Nat.shiftRight_eq_div_pow]
  omega

/-- C13: with `AllowRepeats` true, for every word type and every previous hash,
`hashForWordType` returns `mix(previousHash)` whatever bound is put on the re-hash loop and
whatever the word lists are; `mix(previousHash)` is `xxhash.Sum64` of the eight bytes that
encode `previousHash` little-endian, and is a 64-bit value. -/
theorem hashForWordType_allowRepeats (fuel : Nat) (h : HHash) (t : WordType) (prev : Nat)
    (hrep : h.AllowRepeats = true) :
    hashForWordType fuel h t prev = .ok (mix prev) ∧
    (∀ fuel2 h2 t2, h2.AllowRepeats = true →
      hashForWordType fuel2 h2 t2 prev = hashForWordType fuel h t prev) ∧
    mix prev = xxhash.Sum64 (PutUint64 prev) ∧
    (PutUint64 prev).length = 8 ∧
    xxhash.leUint (PutUint64 prev) = prev % 2 ^ 64 ∧
    mix prev < 2 ^ 64 := by
  have key : ∀ fuel2 (h2 : HHash) t2, h2.AllowRepeats = true →
      hashForWordType fuel2 h2 t2 prev = .ok (mix prev) := by
    intro fuel2 h2 t2 h2rep
    simp only [hashForWordType, h2rep, Bool.not_true, Bool.false_eq_true, if_false]
  refine ⟨key fuel h t hrep, ?_, Eq.refl _, PutUint64_length prev, leUint_PutUint64 prev,
    mix_lt prev⟩
  intro fuel2 h2 t2 h2rep
  rw [key fuel2 h2 t2 h2rep, key fuel h t hrep]

/-- Witness for `hashForWordType_allowRepeats`: the bank that allows repeats, with
its one-word noun list and no retries. -/
theorem hashForWordType_allowRepeats_witness :
    hashForWordType 0 mixedCaseBank .Noun 5 = .ok (mix 5) :=
  (hashForWordType_allowRepeats 0 mixedCaseBank .Noun 5 (Eq.refl true)).1


/-! ## The default pattern -/

theorem toWordType_A (U : UnicodeTables) : toWordType U ['A'] [] = some (.Adverb, .Title) :=
  rfl

theorem toWordType_VG (U : UnicodeTables) :
    toWordType U ['V'] ['G'] = some (.VerbGerund, .Title) :=
  rfl

theorem segments_defaultPattern :
    segments defaultPattern =
      [.token ⟨"%A".toList, ['A'], []⟩, .token ⟨"%V{G}".toList, ['V'], ['G']⟩,
       .token ⟨"%N".toList, ['N'], []⟩] := by
  decide

theorem tokenWord_mem {U : UnicodeTables} {fuel : Nat} {h : HHash} {t : WordType}
    {c : WordCase} {prev : Nat} {w : List Char} {v : Nat}
    (hw : tokenWord U fuel h t c prev = some (w, v)) :
    ∃ a, a ∈ WordsForType h t ∧ w = applyCase U c a := by
  obtain ⟨_, a, ha, hwa⟩ := tokenWord_some hw
  exact ⟨a, List.getElem?_mem ha, hwa⟩

/-- C12, the code at the failing input: `toWordType("A", "")` returns (Adverb, Title), not
(Adjective, Title), so whenever the default pattern `%A%V{G}%N` renders, its first word is
a title-cased entry of the Adverbs list, followed by a gerund and a noun. -/
theorem defaultPattern_starts_with_adverb (U : UnicodeTables) (fuel : Nat) (h : HHash)
    (seed : Nat) (r : HashResult) (hp : h.pattern = defaultPattern)
    (hr : HashUint U fuel h seed = .ok r) :
    toWordType U ['A'] [] = some (.Adverb, .Title) ∧
      ∃ a g n, a ∈ h.Adverbs ∧ g ∈ h.VerbsGerund ∧ n ∈ h.Nouns ∧
        r.hashed = stringsTitle U a ++ (stringsTitle U g ++ stringsTitle U n) := by
  refine ⟨rfl, ?_⟩
  obtain ⟨_, out, ho, rfl⟩ := (HashUint_ok_iff U fuel h seed r).1 hr
  rw [report_hashed]
  rw [hp, segments_defaultPattern] at ho
  simp only [renderSpec, toWordType_A, toWordType_VG, toWordType_N] at ho
  cases h1 : tokenWord U fuel h .Adverb .Title seed with
  | none => rw [h1] at ho; simp at ho
  | some p1 =>
    obtain ⟨w1, v1⟩ := p1
    rw [h1] at ho
    simp only at ho
    cases h2 : tokenWord U fuel h .VerbGerund .Title v1 with
    | none => rw [h2] at ho; simp at ho
    | some p2 =>
      obtain ⟨w2, v2⟩ := p2
      rw [h2] at ho
      simp only at ho
      cases h3 : tokenWord U fuel h .Noun .Title v2 with
      | none => rw [h3] at ho; simp at ho
      | some p3 =>
        obtain ⟨w3, v3⟩ := p3
        rw [h3] at ho
        simp only [Option.map_some', List.append_nil, Option.some.injEq] at ho
        obtain ⟨a, ha, hwa⟩ := tokenWord_mem h1
        obtain ⟨g, hg, hwg⟩ := tokenWord_mem h2
        obtain ⟨n, hn, hwn⟩ := tokenWord_mem h3
        exact ⟨a, g, n, ha, hg, hn, by rw [← ho, hwa, hwg, hwn]; rfl⟩

set_option maxRecDepth 100000 in
/-- Witness for `defaultPattern_starts_with_adverb`: the example bank renders the default
pattern from seed 3 as `QuicklyEatingFox`, whose first word is an adverb. -/
theorem defaultPattern_starts_with_adverb_witness :
    ∃ a g n, a ∈ exampleBank.Adverbs ∧ g ∈ exampleBank.VerbsGerund ∧ n ∈ exampleBank.Nouns ∧
      "QuicklyEatingFox".toList
        = stringsTitle asciiOnly a ++ (stringsTitle asciiOnly g ++ stringsTitle asciiOnly n) :=
  (defaultPattern_starts_with_adverb asciiOnly 4 (InitPattern exampleBank defaultPattern) 3
    ⟨"QuicklyEatingFox".toList, InitPattern exampleBank defaultPattern, none⟩ rfl
    (by decide)).2


/-! ## The token `%%` -/

theorem toWordType_percent (U : UnicodeTables) (parameter : List Char) :
    toWordType U ['%'] parameter = none :=
  rfl

theorem segments_percent_percent :
    segments "%%".toList = [.token ⟨"%%".toList, ['%'], []⟩] := by
  decide

theorem segments_percent_percent_N :
    segments "%%N".toList = [.token ⟨"%%".toList, ['%'], []⟩, .literal 'N'] := by
  decide

/-- C19: `%%` is matched by `patternRegex` as a token whose letter is `%`; `toWordType`
rejects it, so it is copied as `%%`. For every initialised hasher, seed and word bank the
pattern `%%` renders as `%%` and the pattern `%%N` renders as `%%N`: the walk ends in the
state it started from, with the running hash still the seed and no word list touched. -/
theorem HashUint_percent_percent (U : UnicodeTables) (fuel : Nat) (h : HHash) (seed : Nat)
    (hre : h.regexp = true) :
    matchToken "%%N".toList = some (⟨"%%".toList, ['%'], []⟩, ['N']) ∧
    toWordType U ['%'] [] = none ∧
    (h.pattern = "%%".toList →
      renderSegments (tokenReplacer U fuel) (h, seed) (segments h.pattern)
        = .ok ("%%".toList, (h, seed)) ∧
      touchedSizes U h (segments h.pattern) = [] ∧
      ∃ r, HashUint U fuel h seed = .ok r ∧ r.hashed = "%%".toList) ∧
    (h.pattern = "%%N".toList →
      renderSegments (tokenReplacer U fuel) (h, seed) (segments h.pattern)
        = .ok ("%%N".toList, (h, seed)) ∧
      touchedSizes U h (segments h.pattern) = [] ∧
      ∃ r, HashUint U fuel h seed = .ok r ∧ r.hashed = "%%N".toList) := by
  have hm : FindStringSubmatch (⟨"%%".toList, ['%'], []⟩ : Submatch).token
      = some ⟨"%%".toList, ['%'], []⟩ := by decide
  refine ⟨by decide, rfl, ?_, ?_⟩
  · intro hp
    have hwalk : renderSegments (tokenReplacer U fuel) (h, seed) (segments h.pattern)
        = .ok ("%%".toList, (h, seed)) := by
      rw [hp, segments_percent_percent]
      simp only [renderSegments, tokenReplacer_matched U fuel (h, seed) hm, toWordType_percent]
      rfl
    refine ⟨hwalk, ?_, ?_⟩
    · rw [hp, segments_percent_percent]
      simp only [touchedSizes, toWordType_percent]
    · refine ⟨report "%%".toList h, ?_, report_hashed _ _⟩
      rw [HashUint_eq_renderSegments, hwalk]
      simp only [hre, Bool.true_eq_false, if_false]
  · intro hp
    have hwalk : renderSegments (tokenReplacer U fuel) (h, seed) (segments h.pattern)
        = .ok ("%%N".toList, (h, seed)) := by
      rw [hp, segments_percent_percent_N]
      simp only [renderSegments, tokenReplacer_matched U fuel (h, seed) hm, toWordType_percent]
      rfl
    refine ⟨hwalk, ?_, ?_⟩
    · rw [hp, segments_percent_percent_N]
      simp only [touchedSizes, toWordType_percent]
    · refine ⟨report "%%N".toList h, ?_, report_hashed _ _⟩
      rw [HashUint_eq_renderSegments, hwalk]
      simp only [hre, Bool.true_eq_false, if_false]

/-- Witness for `HashUint_percent_percent`: the example bank renders `%%N` as `%%N`. -/
theorem HashUint_percent_percent_witness :
    ∃ r, HashUint asciiOnly 0 (InitPattern exampleBank "%%N".toList) 9 = .ok r ∧
      r.hashed = "%%N".toList :=
  ((HashUint_percent_percent asciiOnly 0 (InitPattern exampleBank "%%N".toList) 9
    (Eq.refl true)).2.2.2 (Eq.refl _)).2.2


/-! ## Parameters -/

theorem matchParameter_followed {p : List Char} (rest : List Char) (hne : p ≠ [])
    (hall : ∀ c ∈ p, isParameterChar c = true) :
    matchParameter ('{' :: (p ++ '}' :: rest)) = some (p, rest) := by
  have hb : isParameterChar '}' = false := by decide
  have hd : (p ++ '}' :: rest).dropWhile isParameterChar = '}' :: rest := by
    rw [List.dropWhile_append_of_pos hall]
    simp [List.dropWhile, hb]
  have ht : (p ++ '}' :: rest).takeWhile isParameterChar = p := by
    rw [List.takeWhile_append_of_pos hall]
    have : List.takeWhile isParameterChar ('}' :: rest) = [] := by
      simp [List.takeWhile, hb]
    rw [this, List.append_nil]
  simp only [matchParameter, hd, ht]
  simp [hne]

theorem toWordType_parameter_ignored (U : UnicodeTables) (x : Char) (p : List Char)
    (hx : x ∈ ['a', 'A', 'j', 'J', 'n', 'N'] ∨
      (x ∈ ['v', 'V'] ∧ stringsToLower U p ≠ ['p'] ∧ stringsToLower U p ≠ ['g'])) :
    toWordType U [x] p = toWordType U [x] [] ∧ toWordType U [x] [] ≠ none := by
  rcases hx with hx | ⟨hx, hp, hg⟩
  · simp only [List.mem_cons, List.mem_singleton, List.not_mem_nil, or_false] at hx
    rcases hx with rfl | rfl | rfl | rfl | rfl | rfl <;> exact ⟨rfl, Option.some_ne_none _⟩
  · simp only [List.mem_cons, List.mem_singleton, List.not_mem_nil, or_false] at hx
    rcases hx with rfl | rfl
    · have h1 : toWordType U ['v'] p = some (.Verb, .Lower) := by
        have hl : stringsToLower U ['v'] = ['v'] := rfl
        simp [toWordType, hl, hp, hg]
      exact ⟨h1.trans rfl, Option.some_ne_none _⟩
    · have h1 : toWordType U ['V'] p = some (.Verb, .Title) := by
        have hl : stringsToLower U ['V'] = ['v'] := rfl
        simp [toWordType, hl, hp, hg]
      exact ⟨h1.trans rfl, Option.some_ne_none _⟩

theorem renderSpec_token_congr (U : UnicodeTables) (fuel : Nat) (h : HHash) (seed : Nat)
    (parts1 parts2 : Submatch) (segs : List Segment)
    (heq : toWordType U parts1.wordCode parts1.parameter
      = toWordType U parts2.wordCode parts2.parameter)
    (hne : toWordType U parts2.wordCode parts2.parameter ≠ none) :
    renderSpec U fuel h seed (.token parts1 :: segs)
      = renderSpec U fuel h seed (.token parts2 :: segs) := by
  simp only [renderSpec, heq]
  cases ht : toWordType U parts2.wordCode parts2.parameter with
  | none => exact absurd ht hne
  | some tc => rfl

/-- C20: a `{parameter}` of alphanumerics right after a recognised token is part of the
token and does not reach the output. For the letters a, j and n in either case, and for v
in either case when the lower-cased parameter is neither p nor g (for instance `{x}` or
`{past}`), the regular expression matches `%x{parameter}` as one token, and the pattern
`%x{parameter}` followed by `rest` renders exactly what `%x`
followed by `rest` renders, for every seed and word bank, `rest` being any text that does
not itself start with a parameter. -/
theorem HashUint_parameter_ignored (U : UnicodeTables) (fuel : Nat) (h : HHash) (seed : Nat)
    (x : Char) (p rest out : List Char) (hne : p ≠ [])
    (hall : ∀ c ∈ p, isParameterChar c = true) (hrest : matchParameter rest = none)
    (hx : x ∈ ['a', 'A', 'j', 'J', 'n', 'N'] ∨
      (x ∈ ['v', 'V'] ∧ stringsToLower U p ≠ ['p'] ∧ stringsToLower U p ≠ ['g'])) :
    matchToken ('%' :: x :: '{' :: (p ++ '}' :: rest)) =
        some (⟨'%' :: x :: '{' :: (p ++ ['}']), [x], p⟩, rest) ∧
    ((∃ r, HashUint U fuel { h with pattern := '%' :: x :: '{' :: (p ++ '}' :: rest) } seed
        = .ok r ∧ r.hashed = out) ↔
      (∃ r, HashUint U fuel { h with pattern := '%' :: x :: rest } seed = .ok r ∧
        r.hashed = out)) := by
  have hwc : isWordCodeChar x = true := by
    rcases hx with hx | ⟨hx, _, _⟩
    · simp only [List.mem_cons, List.mem_singleton, List.not_mem_nil, or_false] at hx
      rcases hx with rfl | rfl | rfl | rfl | rfl | rfl <;> decide
    · simp only [List.mem_cons, List.mem_singleton, List.not_mem_nil, or_false] at hx
      rcases hx with rfl | rfl <;> decide
  have hm1 : matchToken ('%' :: x :: '{' :: (p ++ '}' :: rest)) =
      some (⟨'%' :: x :: '{' :: (p ++ ['}']), [x], p⟩, rest) := by
    simp [matchToken, hwc, matchParameter_followed rest hne hall]
  have hm2 : matchToken ('%' :: x :: rest) = some (⟨['%', x], [x], []⟩, rest) := by
    simp [matchToken, hwc, hrest]
  obtain ⟨hty, htn⟩ := toWordType_parameter_ignored U x p hx
  refine ⟨hm1, ?_⟩
  rcases Bool.eq_false_or_eq_true h.regexp with hre | hre
  · have h1 : ({ h with pattern := '%' :: x :: '{' :: (p ++ '}' :: rest) } : HHash).regexp
        = true := hre
    have h2 : ({ h with pattern := '%' :: x :: rest } : HHash).regexp = true := hre
    rw [HashUint_hashed_iff U fuel _ seed h1, HashUint_hashed_iff U fuel _ seed h2]
    show renderSpec U fuel _ seed (segments ('%' :: x :: '{' :: (p ++ '}' :: rest))) = some out ↔
      renderSpec U fuel _ seed (segments ('%' :: x :: rest)) = some out
    rw [segments_cons_of_some hm1, segments_cons_of_some hm2,
      renderSpec_token_congr U fuel _ seed _ ⟨['%', x], [x], []⟩ (segments rest) hty htn]
    rw [@renderSpec_eq_of_bank U fuel
      { h with pattern := '%' :: x :: '{' :: (p ++ '}' :: rest) }
      { h with pattern := '%' :: x :: rest } (fun t => by cases t <;> rfl) rfl]
  · simp [HashUint, hre]

set_option maxRecDepth 100000 in
/-- Witness for `HashUint_parameter_ignored`: `%V{past}` renders the present-tense verb
that `%V` renders. -/
theorem HashUint_parameter_ignored_witness :
    ∃ r, HashUint asciiOnly 4
        { InitPattern exampleBank [] with pattern := '%' :: 'V' :: '{' :: ("past".toList ++ '}' :: []) }
        0 = .ok r ∧ r.hashed = "Eat".toList :=
  (HashUint_parameter_ignored asciiOnly 4 (InitPattern exampleBank []) 0 'V' "past".toList []
    "Eat".toList (by decide) (by decide) rfl (Or.inr (by decide))).2.2
    ((HashUint_hashed_iff asciiOnly 4 _ 0 (Eq.refl true) "Eat".toList).2 (by decide))

/-! ## `InitPattern` -/

/-- C18: `InitPattern` returns a nil error for every pattern string, recognised tokens or
not: the only error it can return is that of compiling the constant `patternRegex`, which
does not depend on the pattern and is nil. It stores the pattern and the compiled
expression, makes `numChoicesPerWord` an empty non-nil list, and leaves the six word
lists, `AllowRepeats` and `CalculateCollisionRate` as they were; calling it twice with the
same pattern gives the state that calling it once gives. -/
theorem InitPattern_spec (h : HHash) (pattern : List Char) :
    InitPatternResult compilePatternRegex h pattern = (InitPattern h pattern, none) ∧
    (∀ compileError pattern2, (InitPatternResult compileError h pattern).2
      = (InitPatternResult compileError h pattern2).2) ∧
    (InitPattern h pattern).pattern = pattern ∧
    (InitPattern h pattern).regexp = true ∧
    (InitPattern h pattern).numChoicesPerWord = some [] ∧
    (∀ t, WordsForType (InitPattern h pattern) t = WordsForType h t) ∧
    (InitPattern h pattern).AllowRepeats = h.AllowRepeats ∧
    (InitPattern h pattern).CalculateCollisionRate = h.CalculateCollisionRate ∧
    InitPattern (InitPattern h pattern) pattern = InitPattern h pattern ∧
    ∀ pattern0, InitPattern (InitPattern h pattern0) pattern = InitPattern h pattern :=
  ⟨rfl, fun compileError _ => by cases compileError <;> rfl, rfl, rfl, rfl,
    fun t => by cases t <;> rfl, rfl, rfl, rfl, fun _ => rfl⟩

/-! ## Hashing strings and bytes -/

theorem or_tag_80 : ∀ x : Fin 64, (x.val ||| 0x80) = 0x80 + x.val := by decide

theorem or_tag_c0 : ∀ x : Fin 32, (x.val ||| 0xC0) = 0xC0 + x.val := by decide

theorem or_tag_e0 : ∀ x : Fin 16, (x.val ||| 0xE0) = 0xE0 + x.val := by decide

theorem or_tag_f0 : ∀ x : Fin 8, (x.val ||| 0xF0) = 0xF0 + x.val := by decide

/-- Masking a byte to its low `k` bits and setting a tag that lies above them adds the
tag to the remainder modulo `2 ^ k`. -/
theorem and_or_tag (x k tag : Nat) (hk : k ≤ 8)
    (htag : ∀ y : Fin (2 ^ k), (y.val ||| tag) = tag + y.val) :
    (x % 256 &&& (2 ^ k - 1) ||| tag) = tag + x % 2 ^ k := by
  rw [Nat.and_pow_two_sub_one_eq_mod]
  have hlt : x % 256 % 2 ^ k < 2 ^ k := Nat.mod_lt _ (Nat.pos_pow_of_pos _ (by decide))
  have := htag ⟨x % 256 % 2 ^ k, hlt⟩
  simp only at this
  rw [this]
  congr 1
  exact Nat.mod_mod_of_dvd x (by
    have : (256 : Nat) = 2 ^ 8 := by norm_num
    rw [this]; exact Nat.pow_dvd_pow 2 hk)

theorem byte_low (v : UInt32) : (v.toUInt8 &&& 0x3f ||| 0x80).toNat = 0x80 + v.toNat % 64 := by
  show ((UInt8.ofNat v.toNat).toBitVec &&& (0x3f : UInt8).toBitVec
    ||| (0x80 : UInt8).toBitVec).toNat = _
  rw [BitVec.toNat_or, BitVec.toNat_and]
  exact and_or_tag v.toNat 6 0x80 (by decide) or_tag_80

theorem shift_toNat (v k : UInt32) : (v >>> k).toNat = v.toNat / 2 ^ (k.toNat % 32) := by
  show (v.toBitVec >>> (k.mod 32).toBitVec.toNat).toNat = _
  rw [BitVec.toNat_ushiftRight, Nat.shiftRight_eq_div_pow]
  rfl

theorem byte_shift (v : UInt32) (k : UInt32) (m tag : UInt8) (j : Nat) (hj : j ≤ 8)
    (hm : m.toNat = 2 ^ j - 1)
    (htag : ∀ y : Fin (2 ^ j), (y.val ||| tag.toNat) = tag.toNat + y.val) :
    ((v >>> k).toUInt8 &&& m ||| tag).toNat
      = tag.toNat + v.toNat / 2 ^ (k.toNat % 32) % 2 ^ j := by
  show ((UInt8.ofNat (v >>> k).toNat).toBitVec &&& m.toBitVec ||| tag.toBitVec).toNat = _
  rw [BitVec.toNat_or, BitVec.toNat_and]
  show ((v >>> k).toNat % 256 &&& m.toNat ||| tag.toNat) = _
  rw [hm, and_or_tag _ j _ hj htag, shift_toNat]

theorem char_lt (c : Char) : c.toNat < 0x110000 := by
  rcases c.valid with h | h
  · exact lt_trans h (by decide)
  · exact h.2

/-- The bytes that the encoder of the core library writes for a character are those of
the table of the standard. -/
theorem utf8EncodeChar_toNat (c : Char) :
    (String.utf8EncodeChar c).map UInt8.toNat = utf8_bytes_of c.toNat := by
  have hv := char_lt c
  have hle : ∀ n : UInt32, c.val ≤ n ↔ c.toNat ≤ n.toNat := fun n => Iff.rfl
  unfold String.utf8EncodeChar utf8_bytes_of
  simp only [hle]
  by_cases h1 : c.toNat < 0x80
  · have h1l : c.toNat ≤ (0x7f : UInt32).toNat := Nat.lt_succ_iff.mp h1
    rw [if_pos h1l, if_pos h1]
    show [c.toNat % 256] = [c.toNat]
    rw [Nat.mod_eq_of_lt (lt_trans h1 (by decide))]
  · have h1l : ¬ c.toNat ≤ (0x7f : UInt32).toNat := fun h => h1 (Nat.lt_succ_iff.mpr h)
    rw [if_neg h1l, if_neg h1]
    by_cases h2 : c.toNat < 0x800
    · have h2l : c.toNat ≤ (0x7ff : UInt32).toNat := Nat.lt_succ_iff.mp h2
      rw [if_pos h2l, if_pos h2]
      simp only [List.map]
      rw [byte_shift c.val 6 0x1f 0xc0 5 (by decide) rfl or_tag_c0, byte_low c.val]
      show [0xC0 + c.toNat / 64 % 32, 0x80 + c.toNat % 64] = _
      rw [@Nat.mod_eq_of_lt (c.toNat / 64) 32 (by omega)]
    · have h2l : ¬ c.toNat ≤ (0x7ff : UInt32).toNat := fun h => h2 (Nat.lt_succ_iff.mpr h)
      rw [if_neg h2l, if_neg h2]
      by_cases h3 : c.toNat < 0x10000
      · have h3l : c.toNat ≤ (0xffff : UInt32).toNat := Nat.lt_succ_iff.mp h3
        rw [if_pos h3l, if_pos h3]
        simp only [List.map]
        rw [byte_shift c.val 6 0x3f 0x80 6 (by decide) rfl or_tag_80,
          byte_shift c.val 12 0x0f 0xe0 4 (by decide) rfl or_tag_e0, byte_low c.val]
        show [0xE0 + c.toNat / 4096 % 16, 0x80 + c.toNat / 64 % 64,
          0x80 + c.toNat % 64] = _
        rw [@Nat.mod_eq_of_lt (c.toNat / 4096) 16 (by omega)]
      · have h3l : ¬ c.toNat ≤ (0xffff : UInt32).toNat :=
          fun h => h3 (Nat.lt_succ_iff.mpr h)
        rw [if_neg h3l, if_neg h3]
        simp only [List.map]
        rw [byte_shift c.val 6 0x3f 0x80 6 (by decide) rfl or_tag_80,
          byte_shift c.val 12 0x3f 0x80 6 (by decide) rfl or_tag_80,
          byte_shift c.val 18 0x07 0xf0 3 (by decide) rfl or_tag_f0, byte_low c.val]
        show [0xF0 + c.toNat / 262144 % 8, 0x80 + c.toNat / 4096 % 64,
          0x80 + c.toNat / 64 % 64, 0x80 + c.toNat % 64] = _
        rw [@Nat.mod_eq_of_lt (c.toNat / 262144) 8 (by omega)]

/-- The bytes by which a Go string holds a text are the UTF-8 encoding of the text. -/
theorem utf8Bytes_eq_utf8_bytes (s : List Char) : utf8Bytes s = utf8_bytes s := by
  unfold utf8Bytes utf8_bytes
  congr 1
  funext c
  exact utf8EncodeChar_toNat c

/-- No text has the single byte `0xFF` as its UTF-8 encoding: the Go string of that byte
is not valid UTF-8. -/
theorem utf8_bytes_ne_ff (s : List Char) : utf8_bytes s ≠ [0xFF] := by
  cases s with
  | nil => simp [utf8_bytes]
  | cons c cs =>
    intro h
    have h0 : utf8_bytes (c :: cs) = utf8_bytes_of c.toNat ++ utf8_bytes cs := by
      simp [utf8_bytes]
    rw [h0] at h
    unfold utf8_bytes_of at h
    by_cases h1 : c.toNat < 0x80
    · rw [if_pos h1] at h
      have := (List.cons.inj h).1
      omega
    · rw [if_neg h1] at h
      have hl := congrArg List.length h
      split_ifs at hl <;> simp at hl

set_option maxRecDepth 100000 in
/-- A known answer of XXH64 with seed 0, through the UTF-8 bytes of the text `abc`. -/
theorem Sum64String_abc : Sum64String (utf8Bytes "abc".toList) = 0x44BC2CF5AD770999 := by
  decide

set_option maxRecDepth 100000 in
/-- The UTF-8 encoding of a text with characters of one, two, three and four bytes. -/
theorem utf8_bytes_sample :
    utf8_bytes [Char.ofNat 0x61, Char.ofNat 0xE9, Char.ofNat 0x20AC, Char.ofNat 0x1F600]
      = [0x61, 0xC3, 0xA9, 0xE2, 0x82, 0xAC, 0xF0, 0x9F, 0x98, 0x80] := by
  decide

set_option maxRecDepth 1000000 in
/-- The example hasher with the default pattern on the texts `abc` and `abd` and on the
bytes of `abc`. -/
theorem HashString_example :
    (HashString asciiOnly 8 exampleDefault (utf8Bytes "abc".toList)).map (fun r => r.hashed)
      = .ok "QuicklyEatingFox".toList ∧
    (HashBytes asciiOnly 8 exampleDefault [0x61, 0x62, 0x63]).map (fun r => r.hashed)
      = .ok "QuicklyEatingFox".toList ∧
    (HashString asciiOnly 8 exampleDefault (utf8Bytes "abd".toList)).map (fun r => r.hashed)
      = .ok "SlowlyRunningDog".toList := by
  decide!

set_option maxRecDepth 1000000 in
/-- The seed of the Go string of the single byte `0xFF` is the hash of that byte, which is
not the hash of the encoding of the replacement character `U+FFFD`. -/
theorem Sum64String_ff :
    Sum64String [0xFF] = 0x95634172A60B7544 ∧
    xxhash.Sum64 (utf8_bytes [Char.ofNat 0xFFFD]) = 0x3CF809391954C4FE := by
  decide!

/-- C14: for every hasher state and every string, `HashString(s)` is `HashBytes` of the
UTF-8 bytes of `s`, and both are `HashUint(seed)` for the seed `xxhash.Sum64` of those
bytes. For a text `s`, the bytes by which the Go string holds it are `utf8_bytes(s)` of
the standard; for every Go string, valid UTF-8 or not (such as the string that `main`
makes of a random identifier, or the byte `0xFF`, which encodes no text), `HashString` is
`HashBytes` of its bytes as they are, not of a re-encoding. On the example hasher the
texts `abc` and `abd` render differently, and `abc` renders as its three bytes do. -/
theorem HashString_eq_HashBytes (U : UnicodeTables) (fuel : Nat) (h : HHash) :
    (∀ s : List Char,
      utf8Bytes s = utf8_bytes s ∧
      HashString U fuel h (utf8Bytes s) = HashBytes U fuel h (utf8_bytes s) ∧
      HashString U fuel h (utf8Bytes s) = HashUint U fuel h (xxhash.Sum64 (utf8_bytes s)) ∧
      HashBytes U fuel h (utf8_bytes s) = HashUint U fuel h (xxhash.Sum64 (utf8_bytes s))) ∧
    (∀ b : List Nat,
      HashString U fuel h b = HashBytes U fuel h b ∧
      HashString U fuel h b = HashUint U fuel h (xxhash.Sum64 b) ∧
      HashBytes U fuel h b = HashUint U fuel h (xxhash.Sum64 b)) ∧
    utf8_bytes [Char.ofNat 0x61, Char.ofNat 0xE9, Char.ofNat 0x20AC, Char.ofNat 0x1F600]
      = [0x61, 0xC3, 0xA9, 0xE2, 0x82, 0xAC, 0xF0, 0x9F, 0x98, 0x80] ∧
    Sum64String (utf8Bytes "abc".toList) = 0x44BC2CF5AD770999 ∧
    (HashString asciiOnly 8 exampleDefault (utf8Bytes "abc".toList)).map (fun r => r.hashed)
      = .ok "QuicklyEatingFox".toList ∧
    (HashBytes asciiOnly 8 exampleDefault [0x61, 0x62, 0x63]).map (fun r => r.hashed)
      = .ok "QuicklyEatingFox".toList ∧
    (HashString asciiOnly 8 exampleDefault (utf8Bytes "abd".toList)).map (fun r => r.hashed)
      = .ok "SlowlyRunningDog".toList ∧
    (∀ s : List Char, utf8_bytes s ≠ [0xFF]) ∧
    Sum64String [0xFF] = 0x95634172A60B7544 ∧
    xxhash.Sum64 (utf8_bytes [Char.ofNat 0xFFFD]) = 0x3CF809391954C4FE := by
  refine ⟨fun s => ⟨utf8Bytes_eq_utf8_bytes s, ?_, ?_, rfl⟩, fun b => ⟨rfl, rfl, rfl⟩,
    utf8_bytes_sample, Sum64String_abc, HashString_example.1, HashString_example.2.1,
    HashString_example.2.2, utf8_bytes_ne_ff, Sum64String_ff.1, Sum64String_ff.2⟩
  · rw [utf8Bytes_eq_utf8_bytes]
    rfl
  · rw [utf8Bytes_eq_utf8_bytes]
    rfl

/-! ## Piped input -/

theorem ReadString_cons_newline (cs : List Char) : ReadString ('\n' :: cs) = (['\n'], cs, false) := by
  simp [ReadString]

theorem ReadString_cons_other {c : Char} (cs : List Char) (hc : c ≠ '\n') :
    ReadString (c :: cs) = (c :: (ReadString cs).1, (ReadString cs).2.1, (ReadString cs).2.2) := by
  simp [ReadString, hc]

theorem splitLines_of_ReadString : ∀ (input cur : List Char),
    ((ReadString input).2.2 = true → splitLines cur input = ([], cur ++ (ReadString input).1)) ∧
    ((ReadString input).2.2 = false →
      splitLines cur input =
        ((cur ++ (ReadString input).1) :: (splitLines [] (ReadString input).2.1).1,
          (splitLines [] (ReadString input).2.1).2))
  | [], cur => by
    constructor
    · intro _; simp [ReadString, splitLines]
    · intro h; simp [ReadString] at h
  | c :: cs, cur => by
    by_cases hc : c = '\n'
    · subst hc
      rw [ReadString_cons_newline]
      constructor
      · intro h; simp at h
      · intro _; simp [splitLines]
    · rw [ReadString_cons_other cs hc]
      have ih := splitLines_of_ReadString cs (cur ++ [c])
      simp only [splitLines, hc, if_false]
      constructor
      · intro h
        rw [ih.1 h, List.append_assoc]
        rfl
      · intro h
        rw [ih.2 h, List.append_assoc]
        rfl

theorem ReadString_rest_length : ∀ input : List Char,
    (ReadString input).2.2 = false → (ReadString input).2.1.length < input.length
  | [], h => by simp [ReadString] at h
  | c :: cs, h => by
    by_cases hc : c = '\n'
    · subst hc
      rw [ReadString_cons_newline]
      simp
    · rw [ReadString_cons_other cs hc] at h ⊢
      have := ReadString_rest_length cs h
      simp only [List.length_cons]
      omega

/-- The loop of `hashPipedStream` chains over the lines that end with a newline and stops
at the text after the last newline without hashing it. -/
theorem pipedLoop_eq_chainLines (U : UnicodeTables) (fuel : Nat) :
    ∀ (n : Nat) (h : HHash) (last input : List Char), input.length < n →
      pipedLoop U fuel n h last input = chainLines U fuel h last (splitLines [] input).1
  | 0, _, _, _, hn => absurd hn (Nat.not_lt_zero _)
  | n + 1, h, last, input, hn => by
    unfold pipedLoop
    rcases Bool.eq_false_or_eq_true (ReadString input).2.2 with he | he
    · rw [if_pos he, ((splitLines_of_ReadString input []).1 he)]
      rfl
    · have hne : ¬ (ReadString input).2.2 = true := by rw [he]; decide
      rw [if_neg hne, ((splitLines_of_ReadString input []).2 he)]
      simp only [List.nil_append, chainLines]
      cases hr : HashString U fuel h (utf8Bytes (last ++ (ReadString input).1)) with
      | error e => rfl
      | ok r =>
        simp only
        have hlen := ReadString_rest_length input he
        exact pipedLoop_eq_chainLines U fuel n r.hasher r.hashed _ (by omega)

theorem hashPipedStream_eq_chainLines (U : UnicodeTables) (fuel : Nat) (h : HHash)
    (input : List Char) :
    hashPipedStream U fuel h input = chainLines U fuel h [] (splitLines [] input).1 :=
  pipedLoop_eq_chainLines U fuel (input.length + 1) h [] input (Nat.lt_succ_self _)

set_option maxRecDepth 1000000 in
/-- C15, the code at the failing input: on the one-line input `fox` without a newline, read
by the example hasher with the default pattern, `hashPipedStream` returns the empty string
and hashes nothing, while `HashString("" + "fox")` renders `SlowlyRunningDog`; on the
input `a`, newline, `b` it returns the render of the first line only. -/
theorem hashPipedStream_drops_last_line :
    inputLines "fox".toList = ["fox".toList] ∧
    (hashPipedStream asciiOnly 8 exampleDefault "fox".toList).map (fun v => v.1) = .ok [] ∧
    (chainLines asciiOnly 8 exampleDefault [] (inputLines "fox".toList)).map (fun v => v.1)
      = .ok "SlowlyRunningDog".toList ∧
    (hashPipedStream asciiOnly 8 exampleDefault "a\nb".toList).map (fun v => v.1)
      = .ok "QuicklyEatingFox".toList ∧
    (chainLines asciiOnly 8 exampleDefault [] ["a\n".toList]).map (fun v => v.1)
      = .ok "QuicklyEatingFox".toList ∧
    (chainLines asciiOnly 8 exampleDefault [] (inputLines "a\nb".toList)).map (fun v => v.1)
      = .ok "SlowlyRunningDog".toList := by
  decide!

end hhash
